import Mathlib

/-!
Verification of the NeuroScreenCaster synthesis core against its
natural-language specification.  The definitions below are a shallow
embedding of the TypeScript sources (the editor module, the project/event
type declarations and the QA smoke script); numbers are modelled as exact
rationals.  Theorems settle the frozen claims about the click-pulse
signal, the QA smoke check, the spring integrator, the camera track, the
cursor pipeline, timeline segment editing, gap search and auto-segment
trimming.
-/

/-- Source: `clamp(value, min, max) = Math.min(Math.max(value, min), max)`. -/
def clamp (value lo hi : ℚ) : ℚ :=
  min (max value lo) hi

/-- Source: `NormalizedRect {x, y, width, height}`. -/
structure NormalizedRect where
  x : ℚ
  y : ℚ
  width : ℚ
  height : ℚ
deriving DecidableEq

/-- Source: `CameraSpring {mass, stiffness, damping}`. -/
structure CameraSpring where
  mass : ℚ
  stiffness : ℚ
  damping : ℚ
deriving DecidableEq

def MIN_RECT_SIZE : ℚ := 0.05

def MIN_SEGMENT_MS : ℚ := 200

def MIN_SEGMENT_GAP_MS : ℚ := 200

def EFFECTIVE_ZOOM_EPSILON : ℚ := 0.001

def CLICK_PULSE_MIN_SCALE : ℚ := 0.82

def CLICK_PULSE_TOTAL_MS : ℚ := 150

def CLICK_PULSE_DOWN_MS : ℚ := 65

def PREVIEW_SPRING_FPS : ℕ := 60

def DEFAULT_RECT : NormalizedRect := ⟨0.2, 0.2, 0.6, 0.6⟩

def FULL_RECT : NormalizedRect := ⟨0, 0, 1, 1⟩

def DEFAULT_SPRING : CameraSpring := ⟨1, 170, 26⟩

/-- Source: `normalizeRect` — clamps width/height into `[MIN_RECT_SIZE, 1]`
and then clamps the origin so the rect stays inside the unit square. -/
def normalizeRect (rect : NormalizedRect) : NormalizedRect :=
  let width := clamp rect.width MIN_RECT_SIZE 1
  let height := clamp rect.height MIN_RECT_SIZE 1
  let x := clamp rect.x 0 (1 - width)
  let y := clamp rect.y 0 (1 - height)
  ⟨x, y, width, height⟩

/-- Source: `getZoomStrength(rect) = 1 / Math.max(rect.width, rect.height)`. -/
def getZoomStrength (rect : NormalizedRect) : ℚ :=
  1 / max rect.width rect.height

/-- The rect-validity invariant stated by the specification (§8):
`w,h ∈ [0.05, 1]`, `x+w ≤ 1+1e-6`, `y+h ≤ 1+1e-6`, with `x,y ≥ 0`. -/
def rectValid (r : NormalizedRect) : Prop :=
  MIN_RECT_SIZE ≤ r.width ∧ r.width ≤ 1 ∧
  MIN_RECT_SIZE ≤ r.height ∧ r.height ≤ 1 ∧
  0 ≤ r.x ∧ 0 ≤ r.y ∧
  r.x + r.width ≤ 1 + 0.000001 ∧ r.y + r.height ≤ 1 + 0.000001

instance (r : NormalizedRect) : Decidable (rectValid r) := by
  unfold rectValid; infer_instance

/-- Source: `springStep(current, velocity, target, spring, dtSeconds)` —
clamps `dt` to `[1e-4, 0.1]`, computes the acceleration and advances the
velocity and the value (semi-implicit Euler). -/
def springStep (current velocity target : ℚ) (spring : CameraSpring)
    (dtSeconds : ℚ) : ℚ × ℚ :=
  let safeDt := clamp dtSeconds 0.0001 0.1
  let accel :=
    ((target - current) * spring.stiffness - spring.damping * velocity) / spring.mass
  let nextVelocity := velocity + accel * safeDt
  (current + nextVelocity * safeDt, nextVelocity)

/-- Source: the binary-search loop inside `sampleClickPulseScale`
(`while (low <= high) { mid = floor((low+high)/2); ... }`), made structural
on an explicit iteration bound; each iteration shrinks `high - low`, so a
bound of `length + 1` iterations is never exhausted. -/
def clickSearchLoop (clicks : List ℚ) (ts : ℚ) :
    ℕ → ℤ → ℤ → ℤ → ℤ
  | 0, _, _, nearest => nearest
  | fuel + 1, low, high, nearest =>
    if low ≤ high then
      let mid := (low + high) / 2
      let clickTs := clicks.getD mid.toNat 0
      if clickTs ≤ ts then
        clickSearchLoop clicks ts fuel (mid + 1) high mid
      else
        clickSearchLoop clicks ts fuel low (mid - 1) nearest
    else nearest

/-- Source: `sampleClickPulseScale(clickTimestamps, ts)` — binary search for
the latest click at or before `ts`, then the piecewise pulse ramp. -/
def sampleClickPulseScale (clickTimestamps : List ℚ) (ts : ℚ) : ℚ :=
  if clickTimestamps.length = 0 then 1
  else
    let nearestIndex :=
      clickSearchLoop clickTimestamps ts (clickTimestamps.length + 1)
        0 ((clickTimestamps.length : ℤ) - 1) (-1)
    if nearestIndex < 0 then 1
    else
      let dt := ts - clickTimestamps.getD nearestIndex.toNat 0
      if dt < 0 ∨ dt > CLICK_PULSE_TOTAL_MS then 1
      else if dt ≤ CLICK_PULSE_DOWN_MS then
        1 - (1 - CLICK_PULSE_MIN_SCALE) * (dt / CLICK_PULSE_DOWN_MS)
      else
        let upDuration := max 1 (CLICK_PULSE_TOTAL_MS - CLICK_PULSE_DOWN_MS)
        CLICK_PULSE_MIN_SCALE +
          (1 - CLICK_PULSE_MIN_SCALE) * ((dt - CLICK_PULSE_DOWN_MS) / upDuration)

/-- The click-pulse ramp as the specification words it, as a function of
`dt = ts - tc`: 1 for `dt > 150`; the down ramp for `dt ≤ 65`; the up ramp
otherwise.  Used to compare the code path with the specified signal. -/
def specClickPulse (dt : ℚ) : ℚ :=
  if dt > 150 then 1
  else if dt ≤ 65 then 1 - (1 - 0.82) * (dt / 65)
  else 0.82 + (1 - 0.82) * ((dt - 65) / 85)

/-- Source: `MouseButton = "left" | "right" | "middle"`. -/
inductive MouseButton
  | left
  | right
  | middle
deriving DecidableEq

/-- Source: `BoundingRect {x, y, width, height}` (physical pixels). -/
structure BoundingRect where
  x : ℚ
  y : ℚ
  width : ℚ
  height : ℚ
deriving DecidableEq

/-- Source: `UiContext {appName, controlName, boundingRect}`. -/
structure UiContext where
  appName : Option String
  controlName : Option String
  boundingRect : Option BoundingRect
deriving DecidableEq

/-- Source: the `InputEvent` tagged union of events.json. -/
inductive InputEvent
  | move (ts x y : ℚ)
  | click (ts x y : ℚ) (button : MouseButton) (uiContext : Option UiContext)
  | mouseUp (ts x y : ℚ) (button : MouseButton)
  | scroll (ts x y dx dy : ℚ)
  | keyDown (ts : ℚ) (keyCode : String)
  | keyUp (ts : ℚ) (keyCode : String)
deriving DecidableEq

/-- Source: the `EventsFile` root object of events.json. -/
structure EventsFile where
  schemaVersion : ℕ
  recordingId : String
  startTimeMs : ℚ
  screenWidth : ℚ
  screenHeight : ℚ
  scaleFactor : ℚ
  events : List InputEvent
deriving DecidableEq

/-- Source: `CursorSample {ts, x, y}`. -/
structure CursorSample where
  ts : ℚ
  x : ℚ
  y : ℚ
deriving DecidableEq

/-- Source: the sample-collection loop of `extractCursorSamples` — move,
click, mouseUp and scroll events yield a normalized, unit-clamped sample. -/
def cursorSampleOfEvent (ef : EventsFile) : InputEvent → Option CursorSample
  | InputEvent.move ts x y =>
      some ⟨ts, clamp (x / ef.screenWidth) 0 1, clamp (y / ef.screenHeight) 0 1⟩
  | InputEvent.click ts x y _ _ =>
      some ⟨ts, clamp (x / ef.screenWidth) 0 1, clamp (y / ef.screenHeight) 0 1⟩
  | InputEvent.mouseUp ts x y _ =>
      some ⟨ts, clamp (x / ef.screenWidth) 0 1, clamp (y / ef.screenHeight) 0 1⟩
  | InputEvent.scroll ts x y _ _ =>
      some ⟨ts, clamp (x / ef.screenWidth) 0 1, clamp (y / ef.screenHeight) 0 1⟩
  | InputEvent.keyDown _ _ => none
  | InputEvent.keyUp _ _ => none

/-- Source: the smoothing loop of `extractCursorSamples` starting from the
running values `(sx, sy)`: each sample moves the running value by
`alpha * (sample - running)`. -/
def ewmaLoop (alpha : ℚ) : ℚ → ℚ → List CursorSample → List CursorSample
  | _, _, [] => []
  | sx, sy, s :: rest =>
    let nx := sx + alpha * (s.x - sx)
    let ny := sy + alpha * (s.y - sy)
    ⟨s.ts, nx, ny⟩ :: ewmaLoop alpha nx ny rest

/-- Source: `smoothed = [sorted[0]]` followed by the smoothing loop seeded
with the first sorted sample. -/
def applyEwma (alpha : ℚ) : List CursorSample → List CursorSample
  | [] => []
  | s :: rest => s :: ewmaLoop alpha s.x s.y rest

/-- The cursor pipeline up to (and including) the stable sort by `ts`:
guards, per-event normalization and `samples.sort((a, b) => a.ts - b.ts)`. -/
def sortedCursorSamples (eventsFile : Option EventsFile) : List CursorSample :=
  match eventsFile with
  | none => []
  | some ef =>
    if ef.screenWidth ≤ 0 ∨ ef.screenHeight ≤ 0 then []
    else
      (ef.events.filterMap (cursorSampleOfEvent ef)).mergeSort
        (fun a b => decide (a.ts ≤ b.ts))

/-- Source: `extractCursorSamples(eventsFile, smoothingFactor)` — guards,
normalization, stable sort by `ts`, then the first-order EWMA with
`alpha = 1 - clamp(smoothingFactor, 0, 1) * 0.9` (skipped for lists of at
most one sample). -/
def extractCursorSamples (eventsFile : Option EventsFile)
    (smoothingFactor : ℚ) : List CursorSample :=
  match eventsFile with
  | none => []
  | some ef =>
    if ef.screenWidth ≤ 0 ∨ ef.screenHeight ≤ 0 then []
    else
      let sorted :=
        (ef.events.filterMap (cursorSampleOfEvent ef)).mergeSort
          (fun a b => decide (a.ts ≤ b.ts))
      if sorted.length ≤ 1 then sorted
      else
        let factor := clamp smoothingFactor 0 1
        let alpha := 1 - factor * 0.9
        applyEwma alpha sorted

/-- Source: `ZoomMode = "fixed" | "follow-cursor"`. -/
inductive ZoomMode
  | fixed
  | followCursor
deriving DecidableEq

/-- Source: `ZoomTrigger = "auto-click" | "auto-scroll" | "manual"`. -/
inductive ZoomTrigger
  | autoClick
  | autoScroll
  | manual
deriving DecidableEq

/-- Source: `TargetPoint {ts, rect}`. -/
structure TargetPoint where
  ts : ℚ
  rect : NormalizedRect
deriving DecidableEq

instance : Inhabited TargetPoint := ⟨⟨0, FULL_RECT⟩⟩

/-- Source: `RuntimeSegment` — the normalized segment shape consumed by the
spring camera integrator. -/
structure RuntimeSegment where
  id : String
  startTs : ℚ
  endTs : ℚ
  isAuto : Bool
  mode : ZoomMode
  trigger : ZoomTrigger
  baseRect : NormalizedRect
  targetPoints : List TargetPoint
  spring : CameraSpring
deriving DecidableEq

/-- Source: `SpringCameraSample {ts, rect}`. -/
structure SpringCameraSample where
  ts : ℚ
  rect : NormalizedRect
deriving DecidableEq

/-- Source: `getTargetRectAtTs(segment, timelineTs)` — base rect for empty
target points, first/last rect outside the covered range, otherwise the
latest target point at or before `timelineTs` (the backward index scan). -/
def getTargetRectAtTs (segment : RuntimeSegment) (timelineTs : ℚ) :
    NormalizedRect :=
  match segment.targetPoints with
  | [] => segment.baseRect
  | first :: rest =>
    if timelineTs ≤ first.ts then first.rect
    else
      let lastP := List.getLastD (first :: rest) first
      if timelineTs ≥ lastP.ts then lastP.rect
      else
        match (first :: rest).reverse.find? (fun p => decide (timelineTs ≥ p.ts)) with
        | some p => p.rect
        | none => first.rect

/-- Source: `resolveRuntimeSegment(segments, timelineTs)` — first segment in
list order with `startTs ≤ ts < endTs`. -/
def resolveRuntimeSegment (segments : List RuntimeSegment) (timelineTs : ℚ) :
    Option RuntimeSegment :=
  segments.find? (fun s => decide (s.startTs ≤ timelineTs) && decide (timelineTs < s.endTs))

/-- State threaded through the spring-track loop: the (already normalized)
current rect and the four per-coordinate velocities. -/
structure TrackState where
  rect : NormalizedRect
  vx : ℚ
  vy : ℚ
  vw : ℚ
  vh : ℚ

/-- Source: the body of one integration iteration of
`buildSpringCameraTrack` — resolve the active segment at the interval
start, sample its target rect, advance the four coordinate springs over
`dtSeconds = (ts - previousTs) / 1000` and renormalize the rect. -/
def trackStep (segments : List RuntimeSegment) (st : TrackState)
    (previousTs ts : ℚ) : TrackState :=
  let activeSegment := resolveRuntimeSegment segments previousTs
  let targetRect :=
    match activeSegment with
    | some s => getTargetRectAtTs s previousTs
    | none => FULL_RECT
  let spring :=
    match activeSegment with
    | some s => s.spring
    | none => DEFAULT_SPRING
  let dtSeconds := (ts - previousTs) / 1000
  let stepX := springStep st.rect.x st.vx targetRect.x spring dtSeconds
  let stepY := springStep st.rect.y st.vy targetRect.y spring dtSeconds
  let stepW := springStep st.rect.width st.vw targetRect.width spring dtSeconds
  let stepH := springStep st.rect.height st.vh targetRect.height spring dtSeconds
  ⟨normalizeRect ⟨stepX.1, stepY.1, stepW.1, stepH.1⟩,
   stepX.2, stepY.2, stepW.2, stepH.2⟩

/-- Source: the `while (previousTs < durationMs)` loop of
`buildSpringCameraTrack`, made structural on an explicit iteration bound
(each iteration advances `frame` by one, and once
`round(frame * stepMs) ≥ durationMs` the loop pushes its final sample, so a
bound derived from `durationMs / stepMs` is never exhausted — proved in the
camera-track theorems). -/
def trackLoop (segments : List RuntimeSegment) (durationMs stepMs : ℚ) :
    TrackState → ℚ → ℕ → ℕ → List SpringCameraSample
  | _, _, _, 0 => []
  | st, previousTs, frame, fuel + 1 =>
    if previousTs < durationMs then
      let ts := min ((round ((frame : ℚ) * stepMs) : ℤ) : ℚ) durationMs
      if ts ≤ previousTs then
        trackLoop segments durationMs stepMs st previousTs (frame + 1) fuel
      else
        let st2 := trackStep segments st previousTs ts
        ⟨ts, st2.rect⟩ ::
          trackLoop segments durationMs stepMs st2 ts (frame + 1) fuel
    else []

/-- Iteration bound for `trackLoop`: one more than the first frame index
whose rounded timestamp provably reaches `durationMs`. -/
def trackFuel (durationMs : ℚ) (fps : ℕ) : ℕ :=
  (⌈(durationMs + 1) * ((max 1 fps : ℕ) : ℚ) / 1000⌉).toNat + 2

/-- Source: `buildSpringCameraTrack(runtimeSegments, durationMs, fps)` —
degenerate durations yield the single `{ts: 0, rect: FULL_RECT}` sample;
otherwise the initial full-rect sample followed by the integration loop at
`stepMs = 1000 / max(1, fps)`. -/
def buildSpringCameraTrack (runtimeSegments : List RuntimeSegment)
    (durationMs : ℚ) (fps : ℕ) : List SpringCameraSample :=
  if durationMs ≤ 0 then [⟨0, FULL_RECT⟩]
  else
    let stepMs := 1000 / ((max 1 fps : ℕ) : ℚ)
    ⟨0, FULL_RECT⟩ ::
      trackLoop runtimeSegments durationMs stepMs ⟨FULL_RECT, 0, 0, 0, 0⟩ 0 1
        (trackFuel durationMs fps)

/-- Source: `PanKeyframe {ts, offsetX, offsetY}` (legacy pan data). -/
structure PanKeyframe where
  ts : ℚ
  offsetX : ℚ
  offsetY : ℚ
deriving DecidableEq

/-- Source: the editor-side `ZoomSegment` (optional fields modelled with
`Option`, matching the `?:` declarations). -/
structure ZoomSegment where
  id : String
  startTs : ℚ
  endTs : ℚ
  initialRect : Option NormalizedRect
  targetRect : Option NormalizedRect
  targetPoints : Option (List TargetPoint)
  spring : Option CameraSpring
  panTrajectory : Option (List PanKeyframe)
  mode : Option ZoomMode
  trigger : Option ZoomTrigger
  isAuto : Bool
deriving DecidableEq

/-- Source: `getSegmentBaseRect(segment) =
normalizeRect(segment.initialRect ?? segment.targetRect ?? DEFAULT_RECT)`. -/
def getSegmentBaseRect (segment : ZoomSegment) : NormalizedRect :=
  normalizeRect ((segment.initialRect).getD ((segment.targetRect).getD DEFAULT_RECT))

/-- Source: `getSortedPanTrajectory(segment)` — the legacy keyframes sorted
by `ts` (stable sort). -/
def getSortedPanTrajectory (segment : ZoomSegment) : List PanKeyframe :=
  ((segment.panTrajectory).getD []).mergeSort (fun a b => decide (a.ts ≤ b.ts))

/-- Source: `panOffsetAtTime(trajectory, ts)` — zero before the first
keyframe, the last offset at or after the last keyframe, otherwise linear
interpolation inside the bracketing keyframe pair (the indexed pair scan). -/
def panOffsetAtTime (trajectory : List PanKeyframe) (ts : ℚ) : ℚ × ℚ :=
  match trajectory with
  | [] => (0, 0)
  | first :: rest =>
    if ts ≤ first.ts then (0, 0)
    else
      let lastK := List.getLastD (first :: rest) first
      if ts ≥ lastK.ts then (lastK.offsetX, lastK.offsetY)
      else
        match ((first :: rest).zip rest).find?
            (fun lr => decide (lr.1.ts ≤ ts) && decide (ts ≤ lr.2.ts)) with
        | some (left, right) =>
          let span := right.ts - left.ts
          if span ≤ 0 then (right.offsetX, right.offsetY)
          else
            let t := (ts - left.ts) / span
            (left.offsetX + (right.offsetX - left.offsetX) * t,
             left.offsetY + (right.offsetY - left.offsetY) * t)
        | none => (lastK.offsetX, lastK.offsetY)

/-- Source: `getLegacyPanRectAtTimelineTs(segment, timelineTs)` — the base
rect shifted by the interpolated pan offset, renormalized. -/
def getLegacyPanRectAtTimelineTs (segment : ZoomSegment) (timelineTs : ℚ) :
    NormalizedRect :=
  let base := getSegmentBaseRect segment
  let off := panOffsetAtTime (getSortedPanTrajectory segment) timelineTs
  normalizeRect ⟨base.x + off.1, base.y + off.2, base.width, base.height⟩

/-- Source: `getSegmentTargetPoints(segment)` — explicit target points are
clamped into the segment, renormalized, stably sorted and padded to cover
`[startTs, endTs]`; otherwise the legacy pan trajectory (or the bare base
rect) is converted to target points. -/
def getSegmentTargetPoints (segment : ZoomSegment) : List TargetPoint :=
  let explicitPoints :=
    (((segment.targetPoints).getD []).map
      (fun p => (⟨clamp p.ts segment.startTs segment.endTs, normalizeRect p.rect⟩ : TargetPoint))).mergeSort
      (fun a b => decide (a.ts ≤ b.ts))
  match explicitPoints with
  | firstP :: restP =>
    let withStart :=
      if firstP.ts > segment.startTs then
        (⟨segment.startTs, firstP.rect⟩ : TargetPoint) :: firstP :: restP
      else firstP :: restP
    let lastP := List.getLastD withStart firstP
    if lastP.ts < segment.endTs then
      withStart ++ [(⟨segment.endTs, lastP.rect⟩ : TargetPoint)]
    else withStart
  | [] =>
    match getSortedPanTrajectory segment with
    | [] =>
      let baseRect := getSegmentBaseRect segment
      [⟨segment.startTs, baseRect⟩, ⟨segment.endTs, baseRect⟩]
    | legacyPan =>
      let middle :=
        (legacyPan.filter
          (fun k => decide (segment.startTs ≤ k.ts) && decide (k.ts ≤ segment.endTs))).map
          (fun k => (⟨k.ts, getLegacyPanRectAtTimelineTs segment k.ts⟩ : TargetPoint))
      (((⟨segment.startTs, getLegacyPanRectAtTimelineTs segment segment.startTs⟩ : TargetPoint) ::
          middle) ++
        [(⟨segment.endTs, getLegacyPanRectAtTimelineTs segment segment.endTs⟩ : TargetPoint)]).mergeSort
        (fun a b => decide (a.ts ≤ b.ts))

/-- Source: `trimAutoNoopSegment(segment)` — non-auto segments pass through;
for auto segments the leading no-op target points (zoom strength at most
`1 + EFFECTIVE_ZOOM_EPSILON`) are dropped and the segment starts at the
first effective point, or the whole segment is dropped.  The source finds
`firstEffectiveIndex` with `findIndex` and then reads
`points[firstEffectiveIndex]`; that combination is expressed here as
`find?` (the first element satisfying the predicate). -/
def trimAutoNoopSegment (segment : ZoomSegment) : Option ZoomSegment :=
  if !segment.isAuto then some segment
  else
    let points := getSegmentTargetPoints segment
    if points.length = 0 then some segment
    else
      match points.find?
          (fun p => decide (getZoomStrength p.rect > 1 + EFFECTIVE_ZOOM_EPSILON)) with
      | none => none
      | some firstEffective =>
        let effectiveStartTs := clamp firstEffective.ts segment.startTs segment.endTs
        if effectiveStartTs ≥ segment.endTs then none
        else
          let trimmedPoints :=
            (points.filter (fun p => decide (p.ts ≥ effectiveStartTs))).map
              (fun p =>
                (⟨clamp p.ts effectiveStartTs segment.endTs, normalizeRect p.rect⟩ :
                  TargetPoint))
          if trimmedPoints.length = 0 then none
          else
            let withStart :=
              if (trimmedPoints.headD default).ts > effectiveStartTs then
                (⟨effectiveStartTs, (trimmedPoints.headD default).rect⟩ : TargetPoint) ::
                  trimmedPoints
              else trimmedPoints
            let lastPoint := List.getLastD withStart default
            let finalPoints :=
              if lastPoint.ts < segment.endTs then
                withStart ++ [(⟨segment.endTs, lastPoint.rect⟩ : TargetPoint)]
              else withStart
            some
              { segment with
                startTs := effectiveStartTs
                initialRect := some (finalPoints.headD default).rect
                targetPoints := some finalPoints }

instance : Inhabited ZoomSegment :=
  ⟨⟨"", 0, 0, none, none, none, none, none, none, none, false⟩⟩

/-- Source: `getSegmentNeighborBounds(segments, segmentId, timelineDurationMs)`
— the previous neighbor end and next neighbor start around `segmentId` in
start-sorted order, with `0` and `max(0, duration)` at the edges. -/
def getSegmentNeighborBounds (segments : List ZoomSegment) (segmentId : String)
    (timelineDurationMs : ℚ) : ℚ × ℚ :=
  let sorted := segments.mergeSort (fun a b => decide (a.startTs ≤ b.startTs))
  match sorted.findIdx? (fun s => decide (s.id = segmentId)) with
  | none => (0, max 0 timelineDurationMs)
  | some index =>
    (if 0 < index then (sorted.getD (index - 1) default).endTs else 0,
     if index + 1 < sorted.length then (sorted.getD (index + 1) default).startTs
     else max 0 timelineDurationMs)

/-- Source: the `drag.mode === "move"` branch of the timeline
`onPointerMove` handler — returns the edited `(startTs, endTs)` (the
degenerate `maxStartTs < minStartTs` branch keeps the original times). -/
def dragMoveSegment (prevEndTs nextStartTs timelineDurationMs initialStartTs
    initialEndTs deltaTimelineMs : ℚ) : ℚ × ℚ :=
  let length := initialEndTs - initialStartTs
  let rawStartTs := initialStartTs + deltaTimelineMs
  let minStartTs := max 0 (prevEndTs + MIN_SEGMENT_GAP_MS)
  let maxStartTs :=
    min (max 0 (timelineDurationMs - length))
      (max minStartTs (nextStartTs - MIN_SEGMENT_GAP_MS - length))
  if maxStartTs < minStartTs then (initialStartTs, initialEndTs)
  else
    let startTs := clamp rawStartTs minStartTs maxStartTs
    (startTs, startTs + length)

/-- Source: the `drag.mode === "start"` branch of `onPointerMove` — returns
the edited `startTs`. -/
def dragSegmentStart (prevEndTs initialStartTs initialEndTs
    deltaTimelineMs : ℚ) : ℚ :=
  let rawStartTs := initialStartTs + deltaTimelineMs
  let minStartTs := max 0 (prevEndTs + MIN_SEGMENT_GAP_MS)
  let hardMaxStartTs := initialEndTs - 1
  let preferredMaxStartTs := initialEndTs - MIN_SEGMENT_MS
  let maxStartTs := max minStartTs (min hardMaxStartTs preferredMaxStartTs)
  clamp rawStartTs minStartTs maxStartTs

/-- Source: the end-resize branch of `onPointerMove` — returns the edited
`endTs`. -/
def dragSegmentEnd (nextStartTs timelineDurationMs initialStartTs initialEndTs
    deltaTimelineMs : ℚ) : ℚ :=
  let rawEndTs := initialEndTs + deltaTimelineMs
  let hardMinEndTs := initialStartTs + 1
  let preferredMinEndTs := initialStartTs + MIN_SEGMENT_MS
  let maxEndTs := min timelineDurationMs (nextStartTs - MIN_SEGMENT_GAP_MS)
  let minEndTs := min (max hardMinEndTs preferredMinEndTs) (max hardMinEndTs maxEndTs)
  clamp rawEndTs minEndTs (max minEndTs maxEndTs)

/-- Source: the gap-collection step inside `findAvailableGapForSegment` —
one iteration of the `for (const segment of sorted)` loop, threading the
accumulated gap list and the running `cursor`. -/
def gapScanStep (safeDuration : ℚ) (acc : List (ℚ × ℚ) × ℚ)
    (segment : ZoomSegment) : List (ℚ × ℚ) × ℚ :=
  let gaps := acc.1
  let cursor := acc.2
  let segStart := clamp segment.startTs 0 safeDuration
  let segEnd := clamp segment.endTs 0 safeDuration
  let gaps2 :=
    if segStart > cursor then
      let gapStart := if cursor ≤ 0 then 0 else cursor + MIN_SEGMENT_GAP_MS
      let gapEnd := segStart - MIN_SEGMENT_GAP_MS
      if gapEnd - gapStart ≥ MIN_SEGMENT_MS then gaps ++ [(gapStart, gapEnd)]
      else gaps
    else gaps
  (gaps2, max cursor segEnd)

/-- Source: the gap-collection phase of `findAvailableGapForSegment` —
the fold over the sorted segments followed by the trailing gap between the
final cursor and `safeDuration`. -/
def collectGaps (sorted : List ZoomSegment) (safeDuration : ℚ) :
    List (ℚ × ℚ) :=
  let scanned := sorted.foldl (gapScanStep safeDuration) ([], 0)
  let cursor := scanned.2
  if cursor < safeDuration then
    let gapStart := if cursor ≤ 0 then 0 else cursor + MIN_SEGMENT_GAP_MS
    if safeDuration - gapStart ≥ MIN_SEGMENT_MS then
      scanned.1 ++ [(gapStart, safeDuration)]
    else scanned.1
  else scanned.1

/-- Source: the slot-carving phase of `findAvailableGapForSegment` — pick
the first wide-enough gap ending after the preferred start and carve a
slot of at most 1600 ms out of it. -/
def chooseSlot (gaps : List (ℚ × ℚ)) (preferred : ℚ) : Option (ℚ × ℚ) :=
  match gaps.find?
      (fun gap => decide (gap.2 - gap.1 ≥ MIN_SEGMENT_MS) && decide (preferred < gap.2)) with
  | none => none
  | some gap =>
    let gapStart := gap.1
    let gapEnd := gap.2
    let startTs := clamp preferred gapStart (max gapStart (gapEnd - MIN_SEGMENT_MS))
    let endTs := min (startTs + 1600) gapEnd
    if endTs - startTs < MIN_SEGMENT_MS then
      some (max gapStart (gapEnd - MIN_SEGMENT_MS), gapEnd)
    else some (startTs, endTs)

/-- Source: `findAvailableGapForSegment(segments, timelineDurationMs,
preferredStartTs)` — short-circuit on a too-short timeline, sort, collect
gaps and carve a slot. -/
def findAvailableGapForSegment (segments : List ZoomSegment)
    (timelineDurationMs preferredStartTs : ℚ) : Option (ℚ × ℚ) :=
  let safeDuration := max 0 timelineDurationMs
  if safeDuration < MIN_SEGMENT_MS then none
  else
    let sorted := segments.mergeSort (fun a b => decide (a.startTs ≤ b.startTs))
    chooseSlot (collectGaps sorted safeDuration)
      (clamp preferredStartTs 0 (safeDuration - MIN_SEGMENT_MS))

/-- Raw telemetry event as the smoke tool reads it from JSON: a field is
`none` when `Number(...)` of it is not finite (missing or NaN). -/
structure JsEvent where
  ts : Option ℚ
  x : Option ℚ
  y : Option ℚ
deriving DecidableEq

/-- Raw `targetRect` of a zoom segment in project.json (fields `none` when
`Number(rect?.field)` is not finite). -/
structure SmokeRect where
  x : Option ℚ
  y : Option ℚ
  width : Option ℚ
  height : Option ℚ
deriving DecidableEq

/-- Raw zoom segment as the smoke tool reads it. -/
structure SmokeSegment where
  id : String
  startTs : Option ℚ
  endTs : Option ℚ
  targetRect : SmokeRect
deriving DecidableEq

/-- Raw project.json fields used by the smoke tool (`none` models a missing
or non-finite number; `zoomSegments = none` models a non-array field). -/
structure SmokeProject where
  schemaVersion : Option ℚ
  id : String
  durationMs : Option ℚ
  videoWidth : Option ℚ
  videoHeight : Option ℚ
  zoomSegments : Option (List SmokeSegment)
deriving DecidableEq

/-- Raw events.json fields used by the smoke tool. -/
structure SmokeEvents where
  schemaVersion : Option ℚ
  recordingId : String
  screenWidth : Option ℚ
  screenHeight : Option ℚ
  scaleFactor : Option ℚ
  events : Option (List JsEvent)
deriving DecidableEq

/-- Result of the ffmpeg probe of the source video (each field `none` when
parsing failed). -/
structure SmokeProbe where
  durationMs : Option ℚ
  width : Option ℚ
  height : Option ℚ
  fps : Option ℚ
deriving DecidableEq

/-- The data `main()` of scripts/qa-smoke.mjs operates on: the parsed
project, whether the events/video files exist, the parsed events file and
the video probe result. -/
structure SmokeInput where
  project : SmokeProject
  eventsExists : Bool
  videoExists : Bool
  events : SmokeEvents
  probe : SmokeProbe
deriving DecidableEq

/-- One tag per `fail(...)` / `warn(...)` site of scripts/qa-smoke.mjs. -/
inductive SmokeTag
  | projectSchemaMissing
  | projectSchemaMismatch
  | projectIdMissing
  | projectDurationInvalid
  | eventsFileMissing
  | videoFileMissing
  | eventsSchemaMissing
  | eventsSchemaMismatch
  | recordingIdMissing
  | recordingIdMismatch
  | eventsNotArray
  | probeDurationFail
  | resolutionMismatch
  | resolutionParseFail
  | durationCritical
  | durationDrift
  | noTelemetry
  | negativeTs
  | tsExceedsDuration
  | eventOrderNotMonotonic
  | noCoordEvents
  | screenDimsInvalid
  | negativeCursorCoords
  | scaleFactorInvalid
  | cursorOutOfBounds
  | logicalPixelSuspect
  | zoomSegmentsNotArray
  | segTimesNotNumbers
  | segRangeInvalid
  | segEndExceedsDuration
  | segOverlap
  | segRectInvalid
  | segRectNonPositive
  | segRectOutOfBounds
deriving DecidableEq

/-- Source: the disorder counter of the smoke tool — walks the timestamps
with a running `previous` (initially `-Infinity`, modelled as `none`) and
counts samples strictly below their predecessor. -/
def disorderCountLoop : Option ℚ → ℕ → List ℚ → ℕ
  | _, acc, [] => acc
  | prev, acc, ts :: rest =>
    let acc2 :=
      match prev with
      | some p => if ts < p then acc + 1 else acc
      | none => acc
    disorderCountLoop (some ts) acc2 rest

def disorderCount (l : List ℚ) : ℕ :=
  disorderCountLoop none 0 l

/-- Minimum of a list as `Math.min(...)` over a nonempty spread (0 for the
empty list, which the smoke tool never evaluates). -/
def listMinD (l : List ℚ) : ℚ :=
  match l with
  | [] => 0
  | a :: as => as.foldl min a

/-- Maximum of a list as `Math.max(...)` over a nonempty spread. -/
def listMaxD (l : List ℚ) : ℚ :=
  match l with
  | [] => 0
  | a :: as => as.foldl max a

/-- The finite event timestamps the smoke tool extracts
(`events.events.map(Number).filter(isFinite)`), empty when the events file
is missing or its `events` field is not an array. -/
def smokeEventTimestamps (input : SmokeInput) : List ℚ :=
  if input.eventsExists then
    match input.events.events with
    | some l => l.filterMap (fun e => e.ts)
    | none => []
  else []

/-- JS `s.trim() === ""` — the string is empty or whitespace-only, stated
on the underlying character list (`String.trim` itself is not
kernel-reducible). -/
def strBlank (s : String) : Bool :=
  s.data.all Char.isWhitespace

/-- Source: qa-smoke lines 229-252 — project schema version, id, duration
and file existence fails. -/
def projectMetaIssues (input : SmokeInput) : List SmokeTag :=
  let p := input.project
  (match p.schemaVersion with
   | none => [SmokeTag.projectSchemaMissing]
   | some v => if v ≠ 1 then [SmokeTag.projectSchemaMismatch] else []) ++
  (if strBlank p.id then [SmokeTag.projectIdMissing] else []) ++
  (match p.durationMs with
   | none => [SmokeTag.projectDurationInvalid]
   | some d => if d ≤ 0 then [SmokeTag.projectDurationInvalid] else []) ++
  (if input.eventsExists then [] else [SmokeTag.eventsFileMissing]) ++
  (if input.videoExists then [] else [SmokeTag.videoFileMissing])

/-- Source: qa-smoke lines 254-274 — events schema version, recording id
and events-array fails (only when the events file exists). -/
def eventsMetaIssues (input : SmokeInput) : List SmokeTag :=
  if input.eventsExists then
    let ev := input.events
    let p := input.project
    (match ev.schemaVersion with
     | none => [SmokeTag.eventsSchemaMissing]
     | some v => if v ≠ 1 then [SmokeTag.eventsSchemaMismatch] else []) ++
    (if strBlank ev.recordingId then [SmokeTag.recordingIdMissing]
     else if p.id ≠ "" ∧ ev.recordingId ≠ p.id then [SmokeTag.recordingIdMismatch]
     else []) ++
    (match ev.events with
     | none => [SmokeTag.eventsNotArray]
     | some _ => [])
  else []

/-- Source: qa-smoke lines 276-304 — probe duration fail and resolution
warnings (only when the video file exists). -/
def probeChecks (input : SmokeInput) : List SmokeTag × List SmokeTag :=
  if input.videoExists then
    let probe := input.probe
    let p := input.project
    ((match probe.durationMs with
      | none => [SmokeTag.probeDurationFail]
      | some _ => []),
     (match probe.width, probe.height with
      | some w, some h =>
        (match p.videoWidth, p.videoHeight with
         | some pw, some ph =>
           if pw ≠ w ∨ ph ≠ h then [SmokeTag.resolutionMismatch] else []
         | _, _ => [])
      | _, _ => [SmokeTag.resolutionParseFail]))
  else ([], [])

/-- Source: qa-smoke lines 306-325 — duration drift: critical fail above
25 percent, warning above 8 percent. -/
def driftChecks (input : SmokeInput) : List SmokeTag × List SmokeTag :=
  match input.project.durationMs,
      (if input.videoExists then input.probe.durationMs else none) with
  | some pd, some vd =>
    let delta := |pd - vd|
    let baseline := max pd vd
    let driftRatio := if baseline > 0 then delta / baseline else 0
    if driftRatio > 0.25 then ([SmokeTag.durationCritical], [])
    else if driftRatio > 0.08 then ([], [SmokeTag.durationDrift])
    else ([], [])
  | _, _ => ([], [])

/-- Source: qa-smoke lines 327-359 — finite timestamps: negative and
beyond-duration fails, and the non-monotonic-order warning. -/
def timestampChecks (pd : Option ℚ) (timestamps : List ℚ) :
    List SmokeTag × List SmokeTag :=
  match timestamps with
  | [] => ([], [SmokeTag.noTelemetry])
  | t :: rest =>
    let maxTs := rest.foldl max t
    let minTs := rest.foldl min t
    ((if minTs < 0 then [SmokeTag.negativeTs] else []) ++
     (match pd with
      | some d => if maxTs > d + 1000 then [SmokeTag.tsExceedsDuration] else []
      | none => []),
     if 0 < disorderCount (t :: rest) then [SmokeTag.eventOrderNotMonotonic] else [])

/-- Source: qa-smoke lines 361-408 — cursor coordinate bounds, screen-dim
validity, scale-factor validity and the DPI tolerance rules. -/
def coordChecks (ev : SmokeEvents) (evList : List JsEvent) :
    List SmokeTag × List SmokeTag :=
  match evList.filter (fun e => e.x.isSome && e.y.isSome) with
  | [] => ([], [SmokeTag.noCoordEvents])
  | c :: cs =>
    let xs := (c :: cs).filterMap (fun e => e.x)
    let ys := (c :: cs).filterMap (fun e => e.y)
    let minX := listMinD xs
    let maxX := listMaxD xs
    let minY := listMinD ys
    let maxY := listMaxD ys
    match ev.screenWidth, ev.screenHeight with
    | some sw, some sh =>
      if sw ≤ 0 ∨ sh ≤ 0 then ([SmokeTag.screenDimsInvalid], [])
      else
        let iNeg :=
          if minX < -2 ∨ minY < -2 then [SmokeTag.negativeCursorCoords] else []
        let fitsPhysical :=
          decide (maxX ≤ sw * 1.05) && decide (maxY ≤ sh * 1.05)
        let validScale :=
          match ev.scaleFactor with
          | some sf => decide (0 < sf) && decide (sf ≤ 4)
          | none => false
        let iScale := if validScale then [] else [SmokeTag.scaleFactorInvalid]
        let sf := (ev.scaleFactor).getD 0
        let fitsScaled :=
          validScale && decide (1 < sf) &&
            decide (maxX * sf ≤ sw * 1.05) && decide (maxY * sf ≤ sh * 1.05)
        let iBounds :=
          if !fitsPhysical && !fitsScaled then [SmokeTag.cursorOutOfBounds] else []
        let wLogical :=
          if !fitsPhysical && fitsScaled then [SmokeTag.logicalPixelSuspect] else []
        (iNeg ++ iScale ++ iBounds, wLogical)
    | _, _ => ([SmokeTag.screenDimsInvalid], [])

/-- The telemetry block (qa-smoke lines 327-409), entered only when the
events file exists and its `events` field is an array. -/
def telemetryChecks (input : SmokeInput) : List SmokeTag × List SmokeTag :=
  if input.eventsExists then
    match input.events.events with
    | some evList =>
      let tsBlock :=
        timestampChecks input.project.durationMs (evList.filterMap (fun e => e.ts))
      let coordBlock := coordChecks input.events evList
      (tsBlock.1 ++ coordBlock.1, tsBlock.2 ++ coordBlock.2)
    | none => ([], [])
  else ([], [])

/-- Source: one iteration of the zoom-segment loop (qa-smoke lines
416-454), threading `(issues, warnings)` and `previousEnd` (initially
`-Infinity`, modelled as `none`). -/
def segmentCheckStep (pd : Option ℚ)
    (acc : (List SmokeTag × List SmokeTag) × Option ℚ) (s : SmokeSegment) :
    (List SmokeTag × List SmokeTag) × Option ℚ :=
  let issues := acc.1.1
  let warns := acc.1.2
  let prevEnd := acc.2
  match s.startTs, s.endTs with
  | some st, some et =>
    let i1 := if st < 0 ∨ et ≤ st then [SmokeTag.segRangeInvalid] else []
    let i2 :=
      match pd with
      | some d => if et > d + 1 then [SmokeTag.segEndExceedsDuration] else []
      | none => []
    let w1 :=
      match prevEnd with
      | some pe => if st < pe then [SmokeTag.segOverlap] else []
      | none => []
    let prevEnd2 :=
      some (match prevEnd with
            | some pe => max pe et
            | none => et)
    let rct := s.targetRect
    let iRect :=
      match rct.x, rct.y, rct.width, rct.height with
      | some x, some y, some w, some h =>
        (if w ≤ 0 ∨ h ≤ 0 then [SmokeTag.segRectNonPositive] else []) ++
        (if x < 0 ∨ y < 0 ∨ x + w > 1.0001 ∨ y + h > 1.0001 then
          [SmokeTag.segRectOutOfBounds]
         else [])
      | _, _, _, _ => [SmokeTag.segRectInvalid]
    ((issues ++ i1 ++ i2 ++ iRect, warns ++ w1), prevEnd2)
  | _, _ => ((issues ++ [SmokeTag.segTimesNotNumbers], warns), prevEnd)

/-- Source: qa-smoke lines 411-455 — the zoom-segment validation loop. -/
def segmentChecks (input : SmokeInput) : List SmokeTag × List SmokeTag :=
  match input.project.zoomSegments with
  | none => ([SmokeTag.zoomSegmentsNotArray], [])
  | some segs =>
    (segs.foldl (segmentCheckStep input.project.durationMs) (([], []), none)).1

/-- All fail and warn tags emitted by one smoke run, in source order.  The
optional `--check-export` block (qa-smoke lines 457-478) emits warnings
only and is not modelled: it cannot affect the issue list or the exit
code. -/
def smokeChecks (input : SmokeInput) : List SmokeTag × List SmokeTag :=
  let probeBlock := probeChecks input
  let drift := driftChecks input
  let telemetry := telemetryChecks input
  let segBlock := segmentChecks input
  (projectMetaIssues input ++ eventsMetaIssues input ++ probeBlock.1 ++
     drift.1 ++ telemetry.1 ++ segBlock.1,
   probeBlock.2 ++ drift.2 ++ telemetry.2 ++ segBlock.2)

/-- Source: qa-smoke lines 495-507 — `process.exit(1)` when at least one
issue was recorded, normal exit (code 0) otherwise. -/
def smokeExitCode (input : SmokeInput) : ℕ :=
  if (smokeChecks input).1 = [] then 0 else 1

/-- A concrete smoke-check input whose only defect is a non-monotonic event
timestamp sequence (ts 100 followed by ts 50): every fail-level check
passes. -/
def smokeCounterexampleInput : SmokeInput :=
  ⟨⟨some 1, "rec-1", some 10000, some 1920, some 1080, some []⟩,
   true, true,
   ⟨some 1, "rec-1", some 1920, some 1080, some 1,
    some [⟨some 100, some 10, some 10⟩, ⟨some 50, some 20, some 20⟩]⟩,
   ⟨some 10000, some 1920, some 1080, some 60⟩⟩

/-- A concrete non-auto segment used to instantiate theorems. -/
def trimWitnessNonAuto : ZoomSegment :=
  ⟨"seg-a", 0, 1000, none, some DEFAULT_RECT, none, none, none, none, none, false⟩

/-- A concrete auto segment whose derived target points are all no-ops. -/
def trimWitnessAuto : ZoomSegment :=
  ⟨"seg-b", 0, 1000, none, some FULL_RECT, none, none, none, none, none, true⟩

theorem clamp_le_hi (v lo hi : ℚ) : clamp v lo hi ≤ hi :=
  min_le_right _ _

theorem lo_le_clamp (v lo hi : ℚ) (h : lo ≤ hi) : lo ≤ clamp v lo hi :=
  le_min (le_max_right _ _) h

theorem clamp_eq_self (v lo hi : ℚ) (h1 : lo ≤ v) (h2 : v ≤ hi) :
    clamp v lo hi = v := by
  unfold clamp
  rw [max_eq_left h1, min_eq_left h2]

theorem le_clamp_of_le (v lo hi b : ℚ) (hb : b ≤ lo) (hhi : b ≤ hi) :
    b ≤ clamp v lo hi :=
  le_min (le_trans hb (le_max_right _ _)) hhi

/-- C3: one spring integration step clamps `dt` to `[1e-4, 0.1]` and then
advances velocity by `dt · accel` and value by `velocity · dt`, exactly as
the specification states. -/
theorem springStep_spec (current velocity target : ℚ) (spring : CameraSpring)
    (dt : ℚ) (hm : 0 < spring.mass) (hk : 0 < spring.stiffness)
    (hd : 0 ≤ spring.damping) :
    0.0001 ≤ clamp dt 0.0001 0.1 ∧ clamp dt 0.0001 0.1 ≤ 0.1 ∧
    (springStep current velocity target spring dt).2 =
      velocity + clamp dt 0.0001 0.1 *
        (((target - current) * spring.stiffness - spring.damping * velocity) /
          spring.mass) ∧
    (springStep current velocity target spring dt).1 =
      current + (springStep current velocity target spring dt).2 *
        clamp dt 0.0001 0.1 := by
  refine ⟨lo_le_clamp _ _ _ (by norm_num), clamp_le_hi _ _ _, ?_, ?_⟩
  · simp only [springStep]
    ring
  · simp only [springStep]

/-- Witness for `springStep_spec` at the default spring with `dt = 1`. -/
theorem springStep_spec_witness :
    0 < DEFAULT_SPRING.mass ∧ 0 < DEFAULT_SPRING.stiffness ∧
    0 ≤ DEFAULT_SPRING.damping ∧
    (springStep 0 0 1 DEFAULT_SPRING 1).2 =
      0 + clamp 1 0.0001 0.1 *
        (((1 - 0) * DEFAULT_SPRING.stiffness - DEFAULT_SPRING.damping * 0) /
          DEFAULT_SPRING.mass) :=
  ⟨by norm_num [DEFAULT_SPRING], by norm_num [DEFAULT_SPRING],
   by norm_num [DEFAULT_SPRING],
   (springStep_spec 0 0 1 DEFAULT_SPRING 1 (by norm_num [DEFAULT_SPRING])
     (by norm_num [DEFAULT_SPRING]) (by norm_num [DEFAULT_SPRING])).2.2.1⟩

theorem normalizeRect_width (r : NormalizedRect) :
    (normalizeRect r).width = clamp r.width MIN_RECT_SIZE 1 := rfl

theorem normalizeRect_height (r : NormalizedRect) :
    (normalizeRect r).height = clamp r.height MIN_RECT_SIZE 1 := rfl

theorem normalizeRect_x (r : NormalizedRect) :
    (normalizeRect r).x = clamp r.x 0 (1 - clamp r.width MIN_RECT_SIZE 1) := rfl

theorem normalizeRect_y (r : NormalizedRect) :
    (normalizeRect r).y = clamp r.y 0 (1 - clamp r.height MIN_RECT_SIZE 1) := rfl

theorem rectValid_normalizeRect (r : NormalizedRect) :
    rectValid (normalizeRect r) := by
  have hms : MIN_RECT_SIZE ≤ (1 : ℚ) := by norm_num [MIN_RECT_SIZE]
  have hw1 := lo_le_clamp r.width MIN_RECT_SIZE 1 hms
  have hw2 := clamp_le_hi r.width MIN_RECT_SIZE 1
  have hh1 := lo_le_clamp r.height MIN_RECT_SIZE 1 hms
  have hh2 := clamp_le_hi r.height MIN_RECT_SIZE 1
  have hx0 := lo_le_clamp r.x 0 (1 - clamp r.width MIN_RECT_SIZE 1) (by linarith)
  have hxw := clamp_le_hi r.x 0 (1 - clamp r.width MIN_RECT_SIZE 1)
  have hy0 := lo_le_clamp r.y 0 (1 - clamp r.height MIN_RECT_SIZE 1) (by linarith)
  have hyh := clamp_le_hi r.y 0 (1 - clamp r.height MIN_RECT_SIZE 1)
  unfold rectValid
  rw [normalizeRect_width, normalizeRect_height, normalizeRect_x, normalizeRect_y]
  refine ⟨hw1, hw2, hh1, hh2, hx0, hy0, by linarith, by linarith⟩

theorem rectValid_FULL_RECT : rectValid FULL_RECT := by
  norm_num [rectValid, FULL_RECT, MIN_RECT_SIZE]

theorem trackStep_rect (segments : List RuntimeSegment) (st : TrackState)
    (previousTs ts : ℚ) :
    rectValid (trackStep segments st previousTs ts).rect :=
  rectValid_normalizeRect _

theorem trackLoop_rect_valid (segments : List RuntimeSegment)
    (durationMs stepMs : ℚ) :
    ∀ (fuel : ℕ) (st : TrackState) (previousTs : ℚ) (frame : ℕ),
      ∀ s ∈ trackLoop segments durationMs stepMs st previousTs frame fuel,
        rectValid s.rect := by
  intro fuel
  induction fuel with
  | zero =>
    intro st previousTs frame s hs
    simp [trackLoop] at hs
  | succ n ih =>
    intro st previousTs frame s hs
    by_cases hpd : previousTs < durationMs
    · rw [trackLoop, if_pos hpd] at hs
      by_cases hts :
          min ((round ((frame : ℚ) * stepMs) : ℤ) : ℚ) durationMs ≤ previousTs
      · rw [if_pos hts] at hs
        exact ih st previousTs (frame + 1) s hs
      · rw [if_neg hts] at hs
        rcases List.mem_cons.mp hs with h | h
        · subst h
          exact trackStep_rect _ _ _ _
        · exact ih _ _ (frame + 1) s h
    · rw [trackLoop, if_neg hpd] at hs
      simp at hs

/-- C5: every output of `normalizeRect` satisfies the rect-validity
invariant, and so does every sample of the spring camera track. -/
theorem rect_validity_invariant :
    (∀ r : NormalizedRect, rectValid (normalizeRect r)) ∧
    ∀ (segments : List RuntimeSegment) (durationMs : ℚ) (fps : ℕ),
      ∀ s ∈ buildSpringCameraTrack segments durationMs fps, rectValid s.rect := by
  refine ⟨rectValid_normalizeRect, ?_⟩
  intro segments durationMs fps s hs
  unfold buildSpringCameraTrack at hs
  by_cases hd : durationMs ≤ 0
  · rw [if_pos hd] at hs
    simp at hs
    rw [hs]
    exact rectValid_FULL_RECT
  · rw [if_neg hd] at hs
    rcases List.mem_cons.mp hs with h | h
    · rw [h]
      exact rectValid_FULL_RECT
    · exact trackLoop_rect_valid _ _ _ _ _ _ _ s h

/-- Witness for `rect_validity_invariant`: a concrete membership instance
on a one-segment track. -/
theorem rect_validity_invariant_witness :
    (⟨0, FULL_RECT⟩ : SpringCameraSample) ∈ buildSpringCameraTrack [] 50 60 ∧
    rectValid ((⟨0, FULL_RECT⟩ : SpringCameraSample).rect) :=
  ⟨by decide,
   rect_validity_invariant.2 [] 50 60 ⟨0, FULL_RECT⟩ (by decide)⟩

/-- C10: a non-positive requested duration yields exactly the single
`{ts: 0, rect: FULL_RECT}` sample, for every segment list. -/
theorem buildSpringCameraTrack_degenerate (segments : List RuntimeSegment)
    (durationMs : ℚ) (fps : ℕ) (h : durationMs ≤ 0) :
    buildSpringCameraTrack segments durationMs fps =
      [⟨0, FULL_RECT⟩] := by
  unfold buildSpringCameraTrack
  rw [if_pos h]

/-- Witness for `buildSpringCameraTrack_degenerate` at duration `-5`. -/
theorem buildSpringCameraTrack_degenerate_witness :
    (-5 : ℚ) ≤ 0 ∧ buildSpringCameraTrack [] (-5) 60 = [⟨0, FULL_RECT⟩] :=
  ⟨by norm_num, buildSpringCameraTrack_degenerate [] (-5) 60 (by norm_num)⟩

theorem round_mul_mono (stepMs : ℚ) (hs : 0 ≤ stepMs) (f g : ℕ) (h : f ≤ g) :
    round ((f : ℚ) * stepMs) ≤ round ((g : ℚ) * stepMs) := by
  rw [round_eq, round_eq]
  apply Int.floor_mono
  have hfg : (f : ℚ) ≤ (g : ℚ) := by exact_mod_cast h
  nlinarith

theorem trackLoop_nil_of_ge (segments : List RuntimeSegment)
    (durationMs stepMs : ℚ) (st : TrackState) (previousTs : ℚ) (frame fuel : ℕ)
    (h : durationMs ≤ previousTs) :
    trackLoop segments durationMs stepMs st previousTs frame fuel = [] := by
  cases fuel with
  | zero => rfl
  | succ n => rw [trackLoop, if_neg (not_lt.mpr h)]

theorem trackLoop_chain (segments : List RuntimeSegment)
    (durationMs stepMs : ℚ) :
    ∀ (fuel : ℕ) (st : TrackState) (previousTs : ℚ) (frame : ℕ),
      List.Chain (· < ·) previousTs
        ((trackLoop segments durationMs stepMs st previousTs frame fuel).map
          (fun s => s.ts)) := by
  intro fuel
  induction fuel with
  | zero =>
    intro st previousTs frame
    simp [trackLoop]
  | succ n ih =>
    intro st previousTs frame
    by_cases hpd : previousTs < durationMs
    · rw [trackLoop, if_pos hpd]
      by_cases hts :
          min ((round ((frame : ℚ) * stepMs) : ℤ) : ℚ) durationMs ≤ previousTs
      · rw [if_pos hts]
        exact ih st previousTs (frame + 1)
      · rw [if_neg hts]
        rw [List.map_cons]
        exact List.Chain.cons (not_le.mp hts) (ih _ _ (frame + 1))
    · rw [trackLoop, if_neg hpd]
      simp

theorem trackLoop_last (segments : List RuntimeSegment)
    (durationMs stepMs : ℚ) (hdur : 0 < durationMs) (hstep : 0 < stepMs)
    (F0 : ℕ) (hF0 : durationMs ≤ ((round ((F0 : ℚ) * stepMs) : ℤ) : ℚ)) :
    ∀ (fuel : ℕ) (st : TrackState) (previousTs : ℚ) (frame : ℕ),
      previousTs < durationMs → 1 ≤ fuel → F0 + 1 ≤ frame + fuel →
      trackLoop segments durationMs stepMs st previousTs frame fuel ≠ [] ∧
      ((trackLoop segments durationMs stepMs st previousTs frame fuel).map
        (fun s => s.ts)).getLast? = some durationMs := by
  intro fuel
  induction fuel with
  | zero =>
    intro st previousTs frame hprev hfuel hsum
    exact absurd hfuel (by norm_num)
  | succ n ih =>
    intro st previousTs frame hprev hfuel hsum
    have hframe_lt :
        ∀ g : ℕ, ((round ((g : ℚ) * stepMs) : ℤ) : ℚ) < durationMs → g < F0 := by
      intro g hg
      by_contra hge
      push_neg at hge
      have hmono := round_mul_mono stepMs (le_of_lt hstep) F0 g hge
      have : ((round ((F0 : ℚ) * stepMs) : ℤ) : ℚ) ≤
          ((round ((g : ℚ) * stepMs) : ℤ) : ℚ) := by exact_mod_cast hmono
      linarith
    rw [trackLoop, if_pos hprev]
    by_cases hts :
        min ((round ((frame : ℚ) * stepMs) : ℤ) : ℚ) durationMs ≤ previousTs
    · -- skipped frame: the rounded timestamp did not advance yet
      rw [if_pos hts]
      have hround_lt : ((round ((frame : ℚ) * stepMs) : ℤ) : ℚ) < durationMs := by
        by_contra hcontra
        push_neg at hcontra
        rw [min_eq_right hcontra] at hts
        linarith
      have hflt : frame < F0 := hframe_lt frame hround_lt
      have hn1 : 1 ≤ n := by omega
      exact ih st previousTs (frame + 1) hprev hn1 (by omega)
    · rw [if_neg hts]
      by_cases hend :
          min ((round ((frame : ℚ) * stepMs) : ℤ) : ℚ) durationMs = durationMs
      · -- final sample: the loop terminates right after this push
        rw [hend]
        have hrest :
            trackLoop segments durationMs stepMs
              (trackStep segments st previousTs durationMs) durationMs
              (frame + 1) n = [] :=
          trackLoop_nil_of_ge _ _ _ _ _ _ _ (le_refl _)
        simp only [hrest]
        exact ⟨by simp, by simp⟩
      · -- intermediate sample strictly below durationMs
        have htslt :
            min ((round ((frame : ℚ) * stepMs) : ℤ) : ℚ) durationMs <
              durationMs :=
          lt_of_le_of_ne (min_le_right _ _) hend
        have hround_lt :
            ((round ((frame : ℚ) * stepMs) : ℤ) : ℚ) < durationMs := by
          by_contra hcontra
          push_neg at hcontra
          rw [min_eq_right hcontra] at htslt
          exact absurd htslt (lt_irrefl _)
        have hflt : frame < F0 := hframe_lt frame hround_lt
        have hn1 : 1 ≤ n := by omega
        have hrec := ih (trackStep segments st previousTs
            (min ((round ((frame : ℚ) * stepMs) : ℤ) : ℚ) durationMs))
          (min ((round ((frame : ℚ) * stepMs) : ℤ) : ℚ) durationMs)
          (frame + 1) htslt hn1 (by omega)
      -- the pushed sample is followed by a nonempty tail ending at durationMs
        refine ⟨by simp, ?_⟩
        rcases List.exists_cons_of_ne_nil hrec.1 with ⟨b, l, hb⟩
        have h2 := hrec.2
        rw [hb] at h2
        simp only [List.map_cons] at h2
        simp only [hb, List.map_cons, List.getLast?_cons_cons]
        exact h2

/-- C4: for a positive duration the spring camera track has strictly
increasing timestamps, starts at `ts = 0` and ends at `ts = durationMs`. -/
theorem cameraTrack_monotone (segments : List RuntimeSegment)
    (durationMs : ℚ) (fps : ℕ) (hdur : 0 < durationMs) :
    ((buildSpringCameraTrack segments durationMs fps).map
      (fun s => s.ts)).Chain' (· < ·) ∧
    ((buildSpringCameraTrack segments durationMs fps).map
      (fun s => s.ts)).head? = some 0 ∧
    ((buildSpringCameraTrack segments durationMs fps).map
      (fun s => s.ts)).getLast? = some durationMs := by
  have hm1 : (1 : ℚ) ≤ ((max 1 fps : ℕ) : ℚ) := by
    have h := le_max_left 1 fps
    exact_mod_cast h
  have hm0 : (0 : ℚ) < ((max 1 fps : ℕ) : ℚ) := lt_of_lt_of_le zero_lt_one hm1
  have hstep : (0 : ℚ) < 1000 / ((max 1 fps : ℕ) : ℚ) := by positivity
  have hq0 : (0 : ℚ) < (durationMs + 1) * ((max 1 fps : ℕ) : ℚ) / 1000 := by
    positivity
  have hceil_pos :
      0 < ⌈(durationMs + 1) * ((max 1 fps : ℕ) : ℚ) / 1000⌉ :=
    Int.ceil_pos.mpr hq0
  have hF0cast :
      (((⌈(durationMs + 1) * ((max 1 fps : ℕ) : ℚ) / 1000⌉).toNat : ℕ) : ℚ) =
        ((⌈(durationMs + 1) * ((max 1 fps : ℕ) : ℚ) / 1000⌉ : ℤ) : ℚ) := by
    have h := Int.toNat_of_nonneg (le_of_lt hceil_pos)
    exact_mod_cast h
  have hF0q :
      (durationMs + 1) * ((max 1 fps : ℕ) : ℚ) / 1000 ≤
        (((⌈(durationMs + 1) * ((max 1 fps : ℕ) : ℚ) / 1000⌉).toNat : ℕ) : ℚ) := by
    rw [hF0cast]
    exact Int.le_ceil _
  have hprodeq :
      ((durationMs + 1) * ((max 1 fps : ℕ) : ℚ) / 1000) *
        (1000 / ((max 1 fps : ℕ) : ℚ)) = durationMs + 1 := by
    field_simp
  have hprod :
      durationMs + 1 ≤
        (((⌈(durationMs + 1) * ((max 1 fps : ℕ) : ℚ) / 1000⌉).toNat : ℕ) : ℚ) *
          (1000 / ((max 1 fps : ℕ) : ℚ)) := by
    calc durationMs + 1 =
        ((durationMs + 1) * ((max 1 fps : ℕ) : ℚ) / 1000) *
          (1000 / ((max 1 fps : ℕ) : ℚ)) := hprodeq.symm
      _ ≤ _ := mul_le_mul_of_nonneg_right hF0q (le_of_lt hstep)
  have hround :
      durationMs ≤
        ((round
          ((((⌈(durationMs + 1) * ((max 1 fps : ℕ) : ℚ) / 1000⌉).toNat : ℕ) : ℚ) *
            (1000 / ((max 1 fps : ℕ) : ℚ))) : ℤ) : ℚ) := by
    have habs := abs_sub_round
      ((((⌈(durationMs + 1) * ((max 1 fps : ℕ) : ℚ) / 1000⌉).toNat : ℕ) : ℚ) *
        (1000 / ((max 1 fps : ℕ) : ℚ)))
    have h2 := (abs_le.mp habs).2
    linarith
  have hlast := trackLoop_last segments durationMs
    (1000 / ((max 1 fps : ℕ) : ℚ)) hdur hstep
    (⌈(durationMs + 1) * ((max 1 fps : ℕ) : ℚ) / 1000⌉).toNat hround
    (trackFuel durationMs fps) ⟨FULL_RECT, 0, 0, 0, 0⟩ 0 1 hdur
    (by unfold trackFuel; omega) (by unfold trackFuel; omega)
  have hchain := trackLoop_chain segments durationMs
    (1000 / ((max 1 fps : ℕ) : ℚ)) (trackFuel durationMs fps)
    ⟨FULL_RECT, 0, 0, 0, 0⟩ 0 1
  unfold buildSpringCameraTrack
  rw [if_neg (not_le.mpr hdur)]
  refine ⟨?_, by simp, ?_⟩
  · rw [List.map_cons]
    exact hchain
  · rcases List.exists_cons_of_ne_nil hlast.1 with ⟨b, l, hb⟩
    have h2 := hlast.2
    rw [hb] at h2
    simp only [List.map_cons] at h2
    simp only [hb, List.map_cons, List.getLast?_cons_cons]
    exact h2

/-- Witness for `cameraTrack_monotone` on an empty segment list with
duration 100 ms at 60 fps. -/
theorem cameraTrack_monotone_witness :
    (0 : ℚ) < 100 ∧
    ((buildSpringCameraTrack [] 100 60).map (fun s => s.ts)).getLast? =
      some 100 :=
  ⟨by norm_num, (cameraTrack_monotone [] 100 60 (by norm_num)).2.2⟩

theorem ewmaLoop_one (l : List CursorSample) :
    ∀ sx sy : ℚ, ewmaLoop 1 sx sy l = l := by
  induction l with
  | nil => intro sx sy; rfl
  | cons s rest ih =>
    intro sx sy
    show (⟨s.ts, sx + 1 * (s.x - sx), sy + 1 * (s.y - sy)⟩ : CursorSample) ::
        ewmaLoop 1 (sx + 1 * (s.x - sx)) (sy + 1 * (s.y - sy)) rest = s :: rest
    have hx : sx + 1 * (s.x - sx) = s.x := by ring
    have hy : sy + 1 * (s.y - sy) = s.y := by ring
    rw [hx, hy, ih]

theorem applyEwma_one (l : List CursorSample) : applyEwma 1 l = l := by
  cases l with
  | nil => rfl
  | cons s rest =>
    show s :: ewmaLoop 1 s.x s.y rest = s :: rest
    rw [ewmaLoop_one]

theorem applyEwma_short (alpha : ℚ) (l : List CursorSample)
    (h : l.length ≤ 1) : applyEwma alpha l = l := by
  cases l with
  | nil => rfl
  | cons s rest =>
    cases rest with
    | nil => rfl
    | cons b t => simp at h

theorem extractCursorSamples_eq_ewma (eventsFile : Option EventsFile)
    (smoothingFactor : ℚ) :
    extractCursorSamples eventsFile smoothingFactor =
      applyEwma (1 - clamp smoothingFactor 0 1 * 0.9)
        (sortedCursorSamples eventsFile) := by
  cases eventsFile with
  | none => rfl
  | some ef =>
    simp only [extractCursorSamples, sortedCursorSamples]
    split
    · rfl
    · split
      · next hlen => exact (applyEwma_short _ _ hlen).symm
      · rfl

/-- C6: the cursor pipeline is exactly the EWMA
`out[i] = out[i-1] + alpha * (in[i] - out[i-1])` with
`alpha = 1 - 0.9 * smoothingFactor` applied to the time-sorted normalized
samples; `smoothingFactor = 0` is the identity and `smoothingFactor = 1`
gives `alpha = 0.1` exactly. -/
theorem cursor_smoothing_contract (eventsFile : Option EventsFile)
    (smoothingFactor : ℚ) (h0 : 0 ≤ smoothingFactor)
    (h1 : smoothingFactor ≤ 1) :
    extractCursorSamples eventsFile smoothingFactor =
      applyEwma (1 - 0.9 * smoothingFactor) (sortedCursorSamples eventsFile) ∧
    extractCursorSamples eventsFile 0 = sortedCursorSamples eventsFile ∧
    (1 : ℚ) - 0.9 * 1 = 0.1 := by
  refine ⟨?_, ?_, by norm_num⟩
  · rw [extractCursorSamples_eq_ewma, clamp_eq_self smoothingFactor 0 1 h0 h1]
    have hc : (1 : ℚ) - smoothingFactor * 0.9 = 1 - 0.9 * smoothingFactor := by
      ring
    rw [hc]
  · rw [extractCursorSamples_eq_ewma]
    have hc : clamp (0 : ℚ) 0 1 = 0 := clamp_eq_self 0 0 1 (le_refl 0) (by norm_num)
    rw [hc]
    have hone : (1 : ℚ) - 0 * 0.9 = 1 := by norm_num
    rw [hone]
    exact applyEwma_one _

/-- Witness for `cursor_smoothing_contract` on a two-event file with
`smoothingFactor = 1`. -/
theorem cursor_smoothing_contract_witness :
    (0 : ℚ) ≤ 1 ∧ (1 : ℚ) ≤ 1 ∧
    extractCursorSamples
        (some ⟨1, "rec", 0, 100, 100, 1,
          [InputEvent.move 0 10 10, InputEvent.move 5 20 20]⟩) 1 =
      applyEwma (1 - 0.9 * 1)
        (sortedCursorSamples
          (some ⟨1, "rec", 0, 100, 100, 1,
            [InputEvent.move 0 10 10, InputEvent.move 5 20 20]⟩)) :=
  ⟨by norm_num, by norm_num,
   (cursor_smoothing_contract _ 1 (by norm_num) (by norm_num)).1⟩

theorem sorted_getD_mono (clicks : List ℚ) (hs : clicks.Pairwise (· ≤ ·))
    (i j : ℕ) (hij : i ≤ j) (hj : j < clicks.length) :
    clicks.getD i 0 ≤ clicks.getD j 0 := by
  rcases eq_or_lt_of_le hij with rfl | hlt
  · exact le_refl _
  · have hi : i < clicks.length := lt_trans hlt hj
    rw [List.getD_eq_getElem clicks 0 hi, List.getD_eq_getElem clicks 0 hj]
    have hp := List.pairwise_iff_get.mp hs ⟨i, hi⟩ ⟨j, hj⟩ hlt
    simpa using hp

theorem getD_mem (clicks : List ℚ) (i : ℕ) (hi : i < clicks.length) :
    clicks.getD i 0 ∈ clicks := by
  rw [List.getD_eq_getElem clicks 0 hi]
  exact List.getElem_mem hi

theorem clickSearchLoop_spec (clicks : List ℚ) (ts : ℚ)
    (hs : clicks.Pairwise (· ≤ ·)) :
    ∀ (fuel : ℕ) (low high nearest : ℤ),
      0 ≤ low → high < (clicks.length : ℤ) →
      high - low + 2 ≤ (fuel : ℤ) →
      (∀ i : ℕ, i < clicks.length → high < (i : ℤ) → ts < clicks.getD i 0) →
      (0 ≤ nearest → nearest < (clicks.length : ℤ) ∧
        clicks.getD nearest.toNat 0 ≤ ts ∧ nearest = low - 1) →
      (nearest < 0 → low = 0 ∧ nearest = -1) →
      (clickSearchLoop clicks ts fuel low high nearest = -1 ∧
        ∀ i : ℕ, i < clicks.length → ts < clicks.getD i 0) ∨
      (0 ≤ clickSearchLoop clicks ts fuel low high nearest ∧
        clickSearchLoop clicks ts fuel low high nearest < (clicks.length : ℤ) ∧
        clicks.getD (clickSearchLoop clicks ts fuel low high nearest).toNat 0 ≤ ts ∧
        ∀ i : ℕ, i < clicks.length → clicks.getD i 0 ≤ ts →
          (i : ℤ) ≤ clickSearchLoop clicks ts fuel low high nearest) := by
  intro fuel
  induction fuel with
  | zero =>
    intro low high nearest hlow hhigh hfuel h1 h2 h3
    -- the invariant forces the loop to have terminated already
    have hred : clickSearchLoop clicks ts 0 low high nearest = nearest := rfl
    rw [hred]
    rcases lt_or_le nearest 0 with hneg | hpos
    · rcases h3 hneg with ⟨hl0, hn1⟩
      left
      refine ⟨hn1, ?_⟩
      intro i hi
      exact h1 i hi (by omega)
    · rcases h2 hpos with ⟨hlt, hle, heq⟩
      right
      refine ⟨hpos, hlt, hle, ?_⟩
      intro i hi hile
      by_contra hgt
      push_neg at hgt
      have := h1 i hi (by omega)
      linarith
  | succ n ih =>
    intro low high nearest hlow hhigh hfuel h1 h2 h3
    by_cases hlh : low ≤ high
    · rw [clickSearchLoop, if_pos hlh]
      have hmid1 : low ≤ (low + high) / 2 := by omega
      have hmid2 : (low + high) / 2 ≤ high := by omega
      by_cases hcmp : clicks.getD ((low + high) / 2).toNat 0 ≤ ts
      · rw [if_pos hcmp]
        apply ih ((low + high) / 2 + 1) high ((low + high) / 2)
          (by omega) hhigh (by omega) h1
        · intro _
          exact ⟨by omega, hcmp, by omega⟩
        · intro hcontra
          omega
      · rw [if_neg hcmp]
        push_neg at hcmp
        apply ih low ((low + high) / 2 - 1) nearest hlow (by omega) (by omega)
        · intro i hi hgt
          by_cases hih : high < (i : ℤ)
          · exact h1 i hi hih
          · have hmi : ((low + high) / 2).toNat ≤ i := by omega
            have := sorted_getD_mono clicks hs ((low + high) / 2).toNat i hmi hi
            linarith
        · exact h2
        · exact h3
    · rw [clickSearchLoop, if_neg hlh]
      push_neg at hlh
      rcases lt_or_le nearest 0 with hneg | hpos
      · rcases h3 hneg with ⟨hl0, hn1⟩
        left
        refine ⟨hn1, ?_⟩
        intro i hi
        exact h1 i hi (by omega)
      · rcases h2 hpos with ⟨hlt, hle, heq⟩
        right
        refine ⟨hpos, hlt, hle, ?_⟩
        intro i hi hile
        by_contra hgt
        push_neg at hgt
        have := h1 i hi (by omega)
        linarith

theorem sampleClickPulseScale_eq (clicks : List ℚ) (tc ts : ℚ)
    (hs : clicks.Pairwise (· ≤ ·)) (hmem : tc ∈ clicks) (htc : tc ≤ ts)
    (hlatest : ∀ c ∈ clicks, c ≤ ts → c ≤ tc) :
    sampleClickPulseScale clicks ts = specClickPulse (ts - tc) := by
  have hne : clicks ≠ [] := List.ne_nil_of_mem hmem
  have hlen0 : clicks.length ≠ 0 := by
    simpa [List.length_eq_zero] using hne
  have hspec := clickSearchLoop_spec clicks ts hs (clicks.length + 1) 0
    ((clicks.length : ℤ) - 1) (-1) (le_refl 0) (by omega)
    (by push_cast; omega)
    (by intro i hi hgt; exact absurd hgt (by omega))
    (by intro h; exact absurd h (by norm_num))
    (by intro _; exact ⟨rfl, rfl⟩)
  obtain ⟨tcIdx, hiIdx, hgetIdx⟩ := List.getElem_of_mem hmem
  have htcEq : clicks.getD tcIdx 0 = tc := by
    rw [List.getD_eq_getElem clicks 0 hiIdx]
    exact hgetIdx
  rcases hspec with ⟨hneg1, hall⟩ | ⟨hJ0, hJlt, hJle, hJmax⟩
  · have := hall tcIdx hiIdx
    rw [htcEq] at this
    linarith
  · have hJnat :
        (clickSearchLoop clicks ts (clicks.length + 1) 0
          ((clicks.length : ℤ) - 1) (-1)).toNat < clicks.length := by omega
    have hfound_le_tc :
        clicks.getD (clickSearchLoop clicks ts (clicks.length + 1) 0
          ((clicks.length : ℤ) - 1) (-1)).toNat 0 ≤ tc :=
      hlatest _ (getD_mem clicks _ hJnat) hJle
    have hidxle := hJmax tcIdx hiIdx (by rw [htcEq]; exact htc)
    have htc_le_found :
        tc ≤ clicks.getD (clickSearchLoop clicks ts (clicks.length + 1) 0
          ((clicks.length : ℤ) - 1) (-1)).toNat 0 := by
      have hmono := sorted_getD_mono clicks hs tcIdx
        (clickSearchLoop clicks ts (clicks.length + 1) 0
          ((clicks.length : ℤ) - 1) (-1)).toNat (by omega) hJnat
      rw [htcEq] at hmono
      exact hmono
    have hfound :
        clicks.getD (clickSearchLoop clicks ts (clicks.length + 1) 0
          ((clicks.length : ℤ) - 1) (-1)).toNat 0 = tc :=
      le_antisymm hfound_le_tc htc_le_found
    simp only [sampleClickPulseScale]
    rw [if_neg hlen0, if_neg (not_lt.mpr hJ0), hfound]
    simp only [specClickPulse, CLICK_PULSE_TOTAL_MS, CLICK_PULSE_DOWN_MS,
      CLICK_PULSE_MIN_SCALE]
    have hdtnn : 0 ≤ ts - tc := by linarith
    by_cases hgt : ts - tc > 150
    · rw [if_pos (Or.inr hgt), if_pos hgt]
    · rw [if_neg (by push_neg; exact ⟨by linarith, by linarith⟩), if_neg hgt]
      by_cases hle65 : ts - tc ≤ 65
      · rw [if_pos hle65, if_pos hle65]
      · rw [if_neg hle65, if_neg hle65]
        norm_num

/-- C1 counterexample: at the click instant itself (`ts = tc`, so
`dt = 0`) the code returns scale 1, not 0.82 — the pulse only reaches its
minimum 0.82 at `tc + 65 ms`. -/
theorem clickPulse_at_click_counterexample :
    sampleClickPulseScale [0] 0 = 1 ∧ (1 : ℚ) ≠ 0.82 := by
  constructor
  · have h := sampleClickPulseScale_eq [0] 0 0 (by simp) (by simp) (le_refl 0)
      (fun c _ hc => hc)
    rw [h]
    norm_num [specClickPulse]
  · norm_num

/-- C1 (amended): for a sorted click list and a click `tc` that is the
latest click at or before the sampling time, the pulse signal equals the
piecewise ramp of `dt = ts - tc` exactly as the specification formulas
state it, with `clickPulseScale(tc) = 1` (not 0.82), minimum `0.82` at
`dt = 65` and recovery to `1` at `dt = 150`. -/
theorem clickPulse_spec (clicks : List ℚ) (tc : ℚ)
    (hs : clicks.Pairwise (· ≤ ·)) (hmem : tc ∈ clicks) :
    sampleClickPulseScale clicks tc = 1 ∧
    specClickPulse 0 = 1 ∧ specClickPulse 65 = 0.82 ∧ specClickPulse 150 = 1 ∧
    ∀ ts : ℚ, tc ≤ ts → (∀ c ∈ clicks, c ≤ ts → c ≤ tc) →
      sampleClickPulseScale clicks ts = specClickPulse (ts - tc) := by
  refine ⟨?_, by norm_num [specClickPulse], by norm_num [specClickPulse],
    by norm_num [specClickPulse], ?_⟩
  · have h := sampleClickPulseScale_eq clicks tc tc hs hmem (le_refl tc)
      (fun c _ hc => hc)
    rw [h]
    norm_num [specClickPulse]
  · intro ts hts hlatest
    exact sampleClickPulseScale_eq clicks tc ts hs hmem hts hlatest

/-- Witness for `clickPulse_spec`: one click at 100 ms, sampled 150 ms
later. -/
theorem clickPulse_spec_witness :
    ([100] : List ℚ).Pairwise (· ≤ ·) ∧ (100 : ℚ) ∈ ([100] : List ℚ) ∧
    sampleClickPulseScale [100] 100 = 1 ∧
    sampleClickPulseScale [100] 250 = specClickPulse 150 := by
  have h := clickPulse_spec [100] 100 (by simp) (by simp)
  refine ⟨by simp, by simp, h.1, ?_⟩
  have h2 := h.2.2.2.2 250 (by norm_num)
    (by intro c hc _; simp at hc; simp [hc])
  have : (250 : ℚ) - 100 = 150 := by norm_num
  rw [this] at h2
  exact h2

theorem dragMove_bounds (prevEndTs nextStartTs timelineDurationMs
    initialStartTs initialEndTs deltaTimelineMs : ℚ)
    (hlen : 0 ≤ initialEndTs - initialStartTs)
    (hfit1 : max 0 (prevEndTs + MIN_SEGMENT_GAP_MS) +
      (initialEndTs - initialStartTs) ≤ nextStartTs - MIN_SEGMENT_GAP_MS)
    (hfit2 : max 0 (prevEndTs + MIN_SEGMENT_GAP_MS) +
      (initialEndTs - initialStartTs) ≤ timelineDurationMs) :
    prevEndTs + MIN_SEGMENT_GAP_MS ≤
      (dragMoveSegment prevEndTs nextStartTs timelineDurationMs initialStartTs
        initialEndTs deltaTimelineMs).1 ∧
    (dragMoveSegment prevEndTs nextStartTs timelineDurationMs initialStartTs
      initialEndTs deltaTimelineMs).2 ≤ nextStartTs - MIN_SEGMENT_GAP_MS ∧
    (dragMoveSegment prevEndTs nextStartTs timelineDurationMs initialStartTs
        initialEndTs deltaTimelineMs).2 -
      (dragMoveSegment prevEndTs nextStartTs timelineDurationMs initialStartTs
        initialEndTs deltaTimelineMs).1 = initialEndTs - initialStartTs := by
  have hB : max (max 0 (prevEndTs + MIN_SEGMENT_GAP_MS))
      (nextStartTs - MIN_SEGMENT_GAP_MS - (initialEndTs - initialStartTs)) =
      nextStartTs - MIN_SEGMENT_GAP_MS - (initialEndTs - initialStartTs) :=
    max_eq_right (by linarith)
  have hA : max 0 (prevEndTs + MIN_SEGMENT_GAP_MS) ≤
      max 0 (timelineDurationMs - (initialEndTs - initialStartTs)) :=
    le_max_of_le_right (by linarith)
  have hms : max 0 (prevEndTs + MIN_SEGMENT_GAP_MS) ≤
      min (max 0 (timelineDurationMs - (initialEndTs - initialStartTs)))
        (max (max 0 (prevEndTs + MIN_SEGMENT_GAP_MS))
          (nextStartTs - MIN_SEGMENT_GAP_MS - (initialEndTs - initialStartTs))) :=
    le_min hA (le_max_left _ _)
  simp only [dragMoveSegment]
  rw [if_neg (not_lt.mpr hms)]
  refine ⟨?_, ?_, by ring⟩
  · have h := lo_le_clamp (initialStartTs + deltaTimelineMs)
      (max 0 (prevEndTs + MIN_SEGMENT_GAP_MS))
      (min (max 0 (timelineDurationMs - (initialEndTs - initialStartTs)))
        (max (max 0 (prevEndTs + MIN_SEGMENT_GAP_MS))
          (nextStartTs - MIN_SEGMENT_GAP_MS - (initialEndTs - initialStartTs))))
      hms
    have h2 := le_max_right (0 : ℚ) (prevEndTs + MIN_SEGMENT_GAP_MS)
    simp only
    linarith
  · have h := clamp_le_hi (initialStartTs + deltaTimelineMs)
      (max 0 (prevEndTs + MIN_SEGMENT_GAP_MS))
      (min (max 0 (timelineDurationMs - (initialEndTs - initialStartTs)))
        (max (max 0 (prevEndTs + MIN_SEGMENT_GAP_MS))
          (nextStartTs - MIN_SEGMENT_GAP_MS - (initialEndTs - initialStartTs))))
    have h2 := le_trans (min_le_right
      (max 0 (timelineDurationMs - (initialEndTs - initialStartTs)))
      (max (max 0 (prevEndTs + MIN_SEGMENT_GAP_MS))
        (nextStartTs - MIN_SEGMENT_GAP_MS - (initialEndTs - initialStartTs))))
      (le_of_eq hB)
    simp only
    linarith

theorem dragStart_bounds (prevEndTs initialStartTs initialEndTs
    deltaTimelineMs : ℚ)
    (hroom : max 0 (prevEndTs + MIN_SEGMENT_GAP_MS) ≤
      initialEndTs - MIN_SEGMENT_MS) :
    prevEndTs + MIN_SEGMENT_GAP_MS ≤
      dragSegmentStart prevEndTs initialStartTs initialEndTs deltaTimelineMs ∧
    MIN_SEGMENT_MS ≤ initialEndTs -
      dragSegmentStart prevEndTs initialStartTs initialEndTs deltaTimelineMs := by
  have hminhard : min (initialEndTs - 1) (initialEndTs - MIN_SEGMENT_MS) =
      initialEndTs - MIN_SEGMENT_MS :=
    min_eq_right (by simp only [MIN_SEGMENT_MS]; linarith)
  have hmaxeq : max (max 0 (prevEndTs + MIN_SEGMENT_GAP_MS))
      (min (initialEndTs - 1) (initialEndTs - MIN_SEGMENT_MS)) =
      initialEndTs - MIN_SEGMENT_MS := by
    rw [hminhard]
    exact max_eq_right hroom
  simp only [dragSegmentStart]
  rw [hmaxeq]
  constructor
  · have h := lo_le_clamp (initialStartTs + deltaTimelineMs)
      (max 0 (prevEndTs + MIN_SEGMENT_GAP_MS)) (initialEndTs - MIN_SEGMENT_MS)
      hroom
    have h2 := le_max_right (0 : ℚ) (prevEndTs + MIN_SEGMENT_GAP_MS)
    linarith
  · have h := clamp_le_hi (initialStartTs + deltaTimelineMs)
      (max 0 (prevEndTs + MIN_SEGMENT_GAP_MS)) (initialEndTs - MIN_SEGMENT_MS)
    linarith

theorem dragEnd_bounds (nextStartTs timelineDurationMs initialStartTs
    initialEndTs deltaTimelineMs : ℚ)
    (hroom : initialStartTs + MIN_SEGMENT_MS ≤
      min timelineDurationMs (nextStartTs - MIN_SEGMENT_GAP_MS)) :
    dragSegmentEnd nextStartTs timelineDurationMs initialStartTs initialEndTs
        deltaTimelineMs ≤ nextStartTs - MIN_SEGMENT_GAP_MS ∧
    dragSegmentEnd nextStartTs timelineDurationMs initialStartTs initialEndTs
        deltaTimelineMs ≤ timelineDurationMs ∧
    MIN_SEGMENT_MS ≤
      dragSegmentEnd nextStartTs timelineDurationMs initialStartTs initialEndTs
        deltaTimelineMs - initialStartTs := by
  have hpref : max (initialStartTs + 1) (initialStartTs + MIN_SEGMENT_MS) =
      initialStartTs + MIN_SEGMENT_MS :=
    max_eq_right (by norm_num [MIN_SEGMENT_MS])
  have hmaxEnd : max (initialStartTs + 1)
      (min timelineDurationMs (nextStartTs - MIN_SEGMENT_GAP_MS)) =
      min timelineDurationMs (nextStartTs - MIN_SEGMENT_GAP_MS) :=
    max_eq_right
      (le_trans (by simp only [MIN_SEGMENT_MS]; linarith) hroom)
  have hminEnd : min (initialStartTs + MIN_SEGMENT_MS)
      (min timelineDurationMs (nextStartTs - MIN_SEGMENT_GAP_MS)) =
      initialStartTs + MIN_SEGMENT_MS :=
    min_eq_left hroom
  have hmax2 : max (initialStartTs + MIN_SEGMENT_MS)
      (min timelineDurationMs (nextStartTs - MIN_SEGMENT_GAP_MS)) =
      min timelineDurationMs (nextStartTs - MIN_SEGMENT_GAP_MS) :=
    max_eq_right hroom
  simp only [dragSegmentEnd]
  rw [hpref, hmaxEnd, hminEnd, hmax2]
  have hlo := lo_le_clamp (initialEndTs + deltaTimelineMs)
    (initialStartTs + MIN_SEGMENT_MS)
    (min timelineDurationMs (nextStartTs - MIN_SEGMENT_GAP_MS)) hroom
  have hhi := clamp_le_hi (initialEndTs + deltaTimelineMs)
    (initialStartTs + MIN_SEGMENT_MS)
    (min timelineDurationMs (nextStartTs - MIN_SEGMENT_GAP_MS))
  have h1 := min_le_left timelineDurationMs (nextStartTs - MIN_SEGMENT_GAP_MS)
  have h2 := min_le_right timelineDurationMs (nextStartTs - MIN_SEGMENT_GAP_MS)
  exact ⟨by linarith, by linarith, by linarith⟩

/-- C7: timeline segment edits are clamped to the neighbor gaps: a moved
segment keeps its length and stays between `prevEnd + 200 ms` and
`nextStart - 200 ms`, and resizes keep at least `MIN_SEGMENT_MS` length
(when the neighbors leave room for it); in the concrete two-segment
scenario `[1000,3000]`, `[4000,6000]`, dragging the first to start 3800
yields `[1800, 3800]`. -/
theorem segment_drag_clamp (prevEndTs nextStartTs timelineDurationMs
    initialStartTs initialEndTs deltaTimelineMs : ℚ)
    (hlen : 0 ≤ initialEndTs - initialStartTs)
    (hfit1 : max 0 (prevEndTs + MIN_SEGMENT_GAP_MS) +
      (initialEndTs - initialStartTs) ≤ nextStartTs - MIN_SEGMENT_GAP_MS)
    (hfit2 : max 0 (prevEndTs + MIN_SEGMENT_GAP_MS) +
      (initialEndTs - initialStartTs) ≤ timelineDurationMs)
    (hroomStart : max 0 (prevEndTs + MIN_SEGMENT_GAP_MS) ≤
      initialEndTs - MIN_SEGMENT_MS)
    (hroomEnd : initialStartTs + MIN_SEGMENT_MS ≤
      min timelineDurationMs (nextStartTs - MIN_SEGMENT_GAP_MS)) :
    (getSegmentNeighborBounds
        [⟨"a", 1000, 3000, none, none, none, none, none, none, none, false⟩,
         ⟨"b", 4000, 6000, none, none, none, none, none, none, none, false⟩]
        "a" 6000 = (0, 4000) ∧
      dragMoveSegment 0 4000 6000 1000 3000 2800 = (1800, 3800)) ∧
    (prevEndTs + MIN_SEGMENT_GAP_MS ≤
        (dragMoveSegment prevEndTs nextStartTs timelineDurationMs
          initialStartTs initialEndTs deltaTimelineMs).1 ∧
      (dragMoveSegment prevEndTs nextStartTs timelineDurationMs initialStartTs
        initialEndTs deltaTimelineMs).2 ≤ nextStartTs - MIN_SEGMENT_GAP_MS ∧
      (dragMoveSegment prevEndTs nextStartTs timelineDurationMs initialStartTs
          initialEndTs deltaTimelineMs).2 -
        (dragMoveSegment prevEndTs nextStartTs timelineDurationMs
          initialStartTs initialEndTs deltaTimelineMs).1 =
        initialEndTs - initialStartTs) ∧
    (prevEndTs + MIN_SEGMENT_GAP_MS ≤
        dragSegmentStart prevEndTs initialStartTs initialEndTs
          deltaTimelineMs ∧
      MIN_SEGMENT_MS ≤ initialEndTs -
        dragSegmentStart prevEndTs initialStartTs initialEndTs
          deltaTimelineMs) ∧
    (dragSegmentEnd nextStartTs timelineDurationMs initialStartTs initialEndTs
        deltaTimelineMs ≤ nextStartTs - MIN_SEGMENT_GAP_MS ∧
      dragSegmentEnd nextStartTs timelineDurationMs initialStartTs initialEndTs
        deltaTimelineMs ≤ timelineDurationMs ∧
      MIN_SEGMENT_MS ≤
        dragSegmentEnd nextStartTs timelineDurationMs initialStartTs
          initialEndTs deltaTimelineMs - initialStartTs) := by
  refine ⟨⟨?_, by norm_num [dragMoveSegment, clamp, MIN_SEGMENT_GAP_MS,
      max_def, min_def, Prod.ext_iff]⟩,
    dragMove_bounds prevEndTs nextStartTs timelineDurationMs initialStartTs
      initialEndTs deltaTimelineMs hlen hfit1 hfit2,
    dragStart_bounds prevEndTs initialStartTs initialEndTs deltaTimelineMs
      hroomStart,
    dragEnd_bounds nextStartTs timelineDurationMs initialStartTs initialEndTs
      deltaTimelineMs hroomEnd⟩
  have hsort :
      ([⟨"a", 1000, 3000, none, none, none, none, none, none, none, false⟩,
        ⟨"b", 4000, 6000, none, none, none, none, none, none, none, false⟩] :
          List ZoomSegment).mergeSort
        (fun a b => decide (a.startTs ≤ b.startTs)) =
      [⟨"a", 1000, 3000, none, none, none, none, none, none, none, false⟩,
       ⟨"b", 4000, 6000, none, none, none, none, none, none, none, false⟩] :=
    List.mergeSort_of_sorted (by decide)
  simp only [getSegmentNeighborBounds]
  rw [hsort]
  simp [List.findIdx?_cons, List.getD, max_def]

/-- Witness for `segment_drag_clamp` at concrete neighbor bounds. -/
theorem segment_drag_clamp_witness :
    ((0 : ℚ) ≤ 3000 - 1000 ∧
      max 0 ((0 : ℚ) + MIN_SEGMENT_GAP_MS) + (3000 - 1000) ≤
        6000 - MIN_SEGMENT_GAP_MS ∧
      max 0 ((0 : ℚ) + MIN_SEGMENT_GAP_MS) + (3000 - 1000) ≤ 10000 ∧
      max 0 ((0 : ℚ) + MIN_SEGMENT_GAP_MS) ≤ 3000 - MIN_SEGMENT_MS ∧
      (1000 : ℚ) + MIN_SEGMENT_MS ≤ min 10000 (6000 - MIN_SEGMENT_GAP_MS)) ∧
    ((0 : ℚ) + MIN_SEGMENT_GAP_MS ≤
        (dragMoveSegment 0 6000 10000 1000 3000 100).1 ∧
      (dragMoveSegment 0 6000 10000 1000 3000 100).2 ≤
        6000 - MIN_SEGMENT_GAP_MS ∧
      (dragMoveSegment 0 6000 10000 1000 3000 100).2 -
        (dragMoveSegment 0 6000 10000 1000 3000 100).1 = 3000 - 1000) :=
  ⟨⟨by norm_num, by norm_num [MIN_SEGMENT_GAP_MS, max_def],
    by norm_num [MIN_SEGMENT_GAP_MS, max_def],
    by norm_num [MIN_SEGMENT_GAP_MS, MIN_SEGMENT_MS, max_def],
    by norm_num [MIN_SEGMENT_GAP_MS, MIN_SEGMENT_MS, min_def]⟩,
   (segment_drag_clamp 0 6000 10000 1000 3000 100 (by norm_num)
     (by norm_num [MIN_SEGMENT_GAP_MS, max_def])
     (by norm_num [MIN_SEGMENT_GAP_MS, max_def])
     (by norm_num [MIN_SEGMENT_GAP_MS, MIN_SEGMENT_MS, max_def])
     (by norm_num [MIN_SEGMENT_GAP_MS, MIN_SEGMENT_MS, min_def])).2.1⟩

theorem disorderCountLoop_le (l : List ℚ) :
    ∀ (prev : Option ℚ) (acc : ℕ), acc ≤ disorderCountLoop prev acc l := by
  induction l with
  | nil => intro prev acc; exact le_refl _
  | cons ts rest ih =>
    intro prev acc
    simp only [disorderCountLoop]
    cases prev with
    | none => exact ih (some ts) acc
    | some p =>
      show acc ≤ disorderCountLoop (some ts) (if ts < p then acc + 1 else acc) rest
      by_cases hlt : ts < p
      · rw [if_pos hlt]
        exact le_trans (Nat.le_succ acc) (ih (some ts) (acc + 1))
      · rw [if_neg hlt]
        exact ih (some ts) acc

theorem chain_of_disorderLoop_zero (l : List ℚ) :
    ∀ p : ℚ, disorderCountLoop (some p) 0 l = 0 → List.Chain (· ≤ ·) p l := by
  induction l with
  | nil => intro p _; exact List.Chain.nil
  | cons ts rest ih =>
    intro p h
    simp only [disorderCountLoop] at h
    by_cases hlt : ts < p
    · rw [if_pos hlt] at h
      have := disorderCountLoop_le rest (some ts) (0 + 1)
      omega
    · rw [if_neg hlt] at h
      exact List.Chain.cons (not_lt.mp hlt) (ih ts h)

theorem disorder_pos_of_not_chain (l : List ℚ)
    (h : ¬ l.Chain' (· ≤ ·)) : 0 < disorderCount l := by
  by_contra hc
  push_neg at hc
  apply h
  cases l with
  | nil => exact trivial
  | cons t rest =>
    have h0 : disorderCount (t :: rest) = 0 := by omega
    have h1 : disorderCountLoop (some t) 0 rest = 0 := h0
    exact chain_of_disorderLoop_zero rest t h1

/-- C2 (amended): a non-monotonic event timestamp sequence makes the smoke
check emit the order warning (not a fail), and the exit code is 1 exactly
when some fail-level check fired. -/
theorem smoke_monotonicity_warns (input : SmokeInput)
    (h : ¬ (smokeEventTimestamps input).Chain' (· ≤ ·)) :
    SmokeTag.eventOrderNotMonotonic ∈ (smokeChecks input).2 ∧
    smokeExitCode input = (if (smokeChecks input).1 = [] then 0 else 1) := by
  refine ⟨?_, rfl⟩
  cases hex : input.eventsExists with
  | false => rw [smokeEventTimestamps, hex] at h; simp at h
  | true =>
    cases harr : input.events.events with
    | none =>
      rw [smokeEventTimestamps, hex] at h
      simp only [if_true] at h
      rw [harr] at h
      simp at h
    | some evList =>
      have hts : smokeEventTimestamps input = evList.filterMap (fun e => e.ts) := by
        rw [smokeEventTimestamps, hex]
        simp only [if_true]
        rw [harr]
      rw [hts] at h
      cases hl : evList.filterMap (fun e => e.ts) with
      | nil => rw [hl] at h; simp at h
      | cons t rest =>
        rw [hl] at h
        have hdis : 0 < disorderCount (t :: rest) :=
          disorder_pos_of_not_chain _ h
        have hwarn :
            (timestampChecks input.project.durationMs (t :: rest)).2 =
              [SmokeTag.eventOrderNotMonotonic] := by
          simp only [timestampChecks]
          rw [if_pos hdis]
        have htel : SmokeTag.eventOrderNotMonotonic ∈
            (telemetryChecks input).2 := by
          simp only [telemetryChecks, hex, if_true, harr, hl]
          apply List.mem_append.mpr
          left
          rw [hwarn]
          exact List.mem_singleton.mpr rfl
        simp only [smokeChecks]
        exact List.mem_append.mpr (Or.inl (List.mem_append.mpr (Or.inr htel)))

/-- C2 counterexample: a project/events pair that passes every fail-level
check but has event timestamps 100 followed by 50; the smoke command only
warns about the ordering and exits with code 0, contradicting the claim
that non-monotonic timestamps are reported as a fail with exit code 1. -/
theorem smoke_nonmonotonic_exit_zero :
    ¬ (smokeEventTimestamps smokeCounterexampleInput).Chain' (· ≤ ·) ∧
    (smokeChecks smokeCounterexampleInput).1 = [] ∧
    smokeExitCode smokeCounterexampleInput = 0 := by
  have hts : smokeEventTimestamps smokeCounterexampleInput = [100, 50] := by
    decide
  have h1 : projectMetaIssues smokeCounterexampleInput = [] := by decide
  have h2 : eventsMetaIssues smokeCounterexampleInput = [] := by decide
  have h3 : (probeChecks smokeCounterexampleInput).1 = [] := by decide
  have h4 : (driftChecks smokeCounterexampleInput).1 = [] := by
    norm_num [driftChecks, smokeCounterexampleInput, max_def]
  have h6 : (segmentChecks smokeCounterexampleInput).1 = [] := by decide
  have h5 : (telemetryChecks smokeCounterexampleInput).1 = [] := by
    norm_num [telemetryChecks, timestampChecks, coordChecks,
      smokeCounterexampleInput, listMinD, listMaxD, max_def, min_def,
      List.filterMap, List.filter]
  have hissues : (smokeChecks smokeCounterexampleInput).1 = [] := by
    simp only [smokeChecks]
    rw [h1, h2, h3, h4, h5, h6]
    rfl
  refine ⟨?_, hissues, ?_⟩
  · rw [hts]
    norm_num [List.chain'_cons]
  · rw [smokeExitCode, if_pos hissues]

/-- Witness for `smoke_monotonicity_warns` at the concrete disordered
input. -/
theorem smoke_monotonicity_warns_witness :
    (¬ (smokeEventTimestamps smokeCounterexampleInput).Chain' (· ≤ ·)) ∧
    SmokeTag.eventOrderNotMonotonic ∈
      (smokeChecks smokeCounterexampleInput).2 := by
  have hc : ¬ (smokeEventTimestamps smokeCounterexampleInput).Chain' (· ≤ ·) := by
    have hts : smokeEventTimestamps smokeCounterexampleInput = [100, 50] := by
      decide
    rw [hts]
    norm_num [List.chain'_cons]
  exact ⟨hc, (smoke_monotonicity_warns smokeCounterexampleInput hc).1⟩

theorem self_le_clamp (e D : ℚ) (h : e ≤ D) : e ≤ clamp e 0 D :=
  le_min (le_max_left _ _) h

theorem min_le_clamp (e D : ℚ) : min e D ≤ clamp e 0 D :=
  min_le_min (le_max_left _ _) (le_refl _)

theorem gapScan_inv (D : ℚ) (hD : 0 ≤ D) :
    ∀ (l : List ZoomSegment) (gaps0 : List (ℚ × ℚ)) (cursor : ℚ),
      0 ≤ cursor →
      l.Pairwise (fun a b => a.startTs ≤ b.startTs) →
      l.Pairwise (fun a b => a.endTs ≤ b.startTs) →
      (∀ g ∈ gaps0, ∀ seg ∈ l, g.2 ≤ seg.startTs) →
      (∀ g ∈ gaps0, MIN_SEGMENT_MS ≤ g.2 - g.1 ∧ g.2 ≤ D) →
      cursor ≤ (l.foldl (gapScanStep D) (gaps0, cursor)).2 ∧
      (∀ seg ∈ l, min seg.endTs D ≤ (l.foldl (gapScanStep D) (gaps0, cursor)).2) ∧
      (∀ g ∈ (l.foldl (gapScanStep D) (gaps0, cursor)).1,
        MIN_SEGMENT_MS ≤ g.2 - g.1 ∧ g.2 ≤ D) ∧
      (∀ g ∈ (l.foldl (gapScanStep D) (gaps0, cursor)).1,
        g ∈ gaps0 ∨
          (cursor ≤ g.1 ∧ ∀ seg ∈ l, seg.endTs ≤ g.1 ∨ g.2 ≤ seg.startTs)) := by
  intro l
  induction l with
  | nil =>
    intro gaps0 cursor hcur hsort hnov hg1 hg2
    refine ⟨le_refl _, by simp, hg2, fun g hg => Or.inl hg⟩
  | cons s rest ih =>
    intro gaps0 cursor hcur hsort hnov hg1 hg2
    rw [List.foldl_cons]
    rcases List.pairwise_cons.mp hsort with ⟨hsort_head, hsort_rest⟩
    rcases List.pairwise_cons.mp hnov with ⟨hnov_head, hnov_rest⟩
    -- name the step components
    have hstep : gapScanStep D (gaps0, cursor) s =
        ((if clamp s.startTs 0 D > cursor then
            (if (clamp s.startTs 0 D - MIN_SEGMENT_GAP_MS) -
                (if cursor ≤ 0 then 0 else cursor + MIN_SEGMENT_GAP_MS) ≥
                MIN_SEGMENT_MS then
              gaps0 ++ [((if cursor ≤ 0 then 0 else cursor + MIN_SEGMENT_GAP_MS),
                clamp s.startTs 0 D - MIN_SEGMENT_GAP_MS)]
            else gaps0)
          else gaps0),
         max cursor (clamp s.endTs 0 D)) := rfl
    rw [hstep]
    -- facts about the possibly-added gap
    have hcur1 : 0 ≤ max cursor (clamp s.endTs 0 D) :=
      le_trans hcur (le_max_left _ _)
    have hnewgap :
        ∀ g ∈ (if clamp s.startTs 0 D > cursor then
            (if (clamp s.startTs 0 D - MIN_SEGMENT_GAP_MS) -
                (if cursor ≤ 0 then 0 else cursor + MIN_SEGMENT_GAP_MS) ≥
                MIN_SEGMENT_MS then
              gaps0 ++ [((if cursor ≤ 0 then 0 else cursor + MIN_SEGMENT_GAP_MS),
                clamp s.startTs 0 D - MIN_SEGMENT_GAP_MS)]
            else gaps0)
          else gaps0),
          g ∈ gaps0 ∨
            (clamp s.startTs 0 D > cursor ∧
              g.1 = (if cursor ≤ 0 then 0 else cursor + MIN_SEGMENT_GAP_MS) ∧
              g.2 = clamp s.startTs 0 D - MIN_SEGMENT_GAP_MS ∧
              MIN_SEGMENT_MS ≤ g.2 - g.1) := by
      intro g hg
      by_cases hc1 : clamp s.startTs 0 D > cursor
      · rw [if_pos hc1] at hg
        by_cases hc2 : (clamp s.startTs 0 D - MIN_SEGMENT_GAP_MS) -
            (if cursor ≤ 0 then 0 else cursor + MIN_SEGMENT_GAP_MS) ≥
            MIN_SEGMENT_MS
        · rw [if_pos hc2] at hg
          rcases List.mem_append.mp hg with hg0 | hg0
          · exact Or.inl hg0
          · right
            rcases List.mem_singleton.mp hg0 with rfl
            exact ⟨hc1, rfl, rfl, by simpa using hc2⟩
        · rw [if_neg hc2] at hg
          exact Or.inl hg
      · rw [if_neg hc1] at hg
        exact Or.inl hg
    -- when a gap is added, the clamped start is below the raw start
    have hstart_le : clamp s.startTs 0 D > cursor →
        clamp s.startTs 0 D ≤ s.startTs := by
      intro hc1
      by_cases hpos : 0 ≤ s.startTs
      · calc clamp s.startTs 0 D ≤ max s.startTs 0 := min_le_left _ _
          _ = s.startTs := max_eq_left hpos
      · exfalso
        push_neg at hpos
        have h0 : clamp s.startTs 0 D = 0 := by
          unfold clamp
          rw [max_eq_right (le_of_lt hpos), min_eq_left hD]
        rw [h0] at hc1
        linarith
    -- hypotheses for the recursive call
    have hg1R : ∀ g ∈ (if clamp s.startTs 0 D > cursor then
        (if (clamp s.startTs 0 D - MIN_SEGMENT_GAP_MS) -
            (if cursor ≤ 0 then 0 else cursor + MIN_SEGMENT_GAP_MS) ≥
            MIN_SEGMENT_MS then
          gaps0 ++ [((if cursor ≤ 0 then 0 else cursor + MIN_SEGMENT_GAP_MS),
            clamp s.startTs 0 D - MIN_SEGMENT_GAP_MS)]
        else gaps0)
      else gaps0), ∀ seg ∈ rest, g.2 ≤ seg.startTs := by
      intro g hg seg hseg
      rcases hnewgap g hg with hg0 | ⟨hc1, hgs, hge, hwide⟩
      · exact hg1 g hg0 seg (List.mem_cons_of_mem s hseg)
      · rw [hge]
        have h1 := hstart_le hc1
        have h2 := hsort_head seg hseg
        simp only [MIN_SEGMENT_GAP_MS]
        linarith
    have hg2R : ∀ g ∈ (if clamp s.startTs 0 D > cursor then
        (if (clamp s.startTs 0 D - MIN_SEGMENT_GAP_MS) -
            (if cursor ≤ 0 then 0 else cursor + MIN_SEGMENT_GAP_MS) ≥
            MIN_SEGMENT_MS then
          gaps0 ++ [((if cursor ≤ 0 then 0 else cursor + MIN_SEGMENT_GAP_MS),
            clamp s.startTs 0 D - MIN_SEGMENT_GAP_MS)]
        else gaps0)
      else gaps0), MIN_SEGMENT_MS ≤ g.2 - g.1 ∧ g.2 ≤ D := by
      intro g hg
      rcases hnewgap g hg with hg0 | ⟨hc1, hgs, hge, hwide⟩
      · exact hg2 g hg0
      · refine ⟨hwide, ?_⟩
        rw [hge]
        have h1 := clamp_le_hi s.startTs 0 D
        simp only [MIN_SEGMENT_GAP_MS]
        linarith
    obtain ⟨ihA, ihB, ihC, ihD⟩ := ih _ (max cursor (clamp s.endTs 0 D)) hcur1
      hsort_rest hnov_rest hg1R hg2R
    refine ⟨le_trans (le_max_left _ _) ihA, ?_, ihC, ?_⟩
    · intro seg hseg
      rcases List.mem_cons.mp hseg with rfl | hseg
      · exact le_trans (le_trans (min_le_clamp _ _) (le_max_right cursor _)) ihA
      · exact ihB seg hseg
    · intro g hg
      rcases ihD g hg with hg1m | ⟨hcurg, hdisj⟩
      · -- g came out of the step of s
        rcases hnewgap g hg1m with hg0 | ⟨hc1, hgs, hge, hwide⟩
        · exact Or.inl hg0
        · right
          constructor
          · rw [hgs]
            by_cases hc0 : cursor ≤ 0
            · rw [if_pos hc0]; linarith
            · rw [if_neg hc0]
              simp only [MIN_SEGMENT_GAP_MS]
              linarith
          · intro seg hseg
            rcases List.mem_cons.mp hseg with rfl | hseg
            · right
              rw [hge]
              have h1 := hstart_le hc1
              simp only [MIN_SEGMENT_GAP_MS]
              linarith
            · right
              rw [hge]
              have h1 := hstart_le hc1
              have h2 := hsort_head seg hseg
              simp only [MIN_SEGMENT_GAP_MS]
              linarith
      · -- g was created while scanning rest
        right
        refine ⟨le_trans (le_max_left _ _) hcurg, ?_⟩
        intro seg hseg
        rcases List.mem_cons.mp hseg with rfl | hseg
        · by_cases hend : seg.endTs ≤ D
          · left
            calc seg.endTs ≤ clamp seg.endTs 0 D := self_le_clamp _ _ hend
              _ ≤ max cursor (clamp seg.endTs 0 D) := le_max_right _ _
              _ ≤ g.1 := hcurg
          · exfalso
            push_neg at hend
            have hclampD : clamp seg.endTs 0 D = D := by
              unfold clamp
              rw [min_eq_right (le_trans (le_of_lt hend) (le_max_left _ _))]
            have hDcur : D ≤ max cursor (clamp seg.endTs 0 D) := by
              rw [hclampD]; exact le_max_right _ _
            have hwg := ihC g hg
            simp only [MIN_SEGMENT_MS] at hwg
            have := le_trans hDcur hcurg
            linarith [hwg.1, hwg.2]
        · exact hdisj seg hseg

theorem chooseSlot_subset (gaps : List (ℚ × ℚ)) (preferred : ℚ)
    (slot : ℚ × ℚ) (h : chooseSlot gaps preferred = some slot) :
    ∃ gap ∈ gaps, gap.1 ≤ slot.1 ∧ slot.2 ≤ gap.2 := by
  unfold chooseSlot at h
  split at h
  · exact absurd h (by simp)
  · next gap hfind =>
    refine ⟨gap, List.mem_of_find?_eq_some hfind, ?_⟩
    have h2 :
        (if min (clamp preferred gap.1 (max gap.1 (gap.2 - MIN_SEGMENT_MS)) + 1600)
              gap.2 -
            clamp preferred gap.1 (max gap.1 (gap.2 - MIN_SEGMENT_MS)) <
            MIN_SEGMENT_MS then
          some ((max gap.1 (gap.2 - MIN_SEGMENT_MS), gap.2) : ℚ × ℚ)
        else
          some (clamp preferred gap.1 (max gap.1 (gap.2 - MIN_SEGMENT_MS)),
            min (clamp preferred gap.1 (max gap.1 (gap.2 - MIN_SEGMENT_MS)) + 1600)
              gap.2)) = some slot := h
    split at h2
    · have hslot := (Option.some.inj h2).symm
      rw [hslot]
      exact ⟨le_max_left _ _, le_refl _⟩
    · have hslot := (Option.some.inj h2).symm
      rw [hslot]
      exact ⟨lo_le_clamp _ _ _ (le_max_left _ _), min_le_right _ _⟩

theorem collectGaps_disjoint (segments : List ZoomSegment) (D : ℚ) (hD : 0 ≤ D)
    (hsorted : segments.Pairwise (fun a b => a.startTs ≤ b.startTs))
    (hnonoverlap : segments.Pairwise (fun a b => a.endTs ≤ b.startTs)) :
    ∀ g ∈ collectGaps segments D, ∀ seg ∈ segments,
      seg.endTs ≤ g.1 ∨ g.2 ≤ seg.startTs := by
  obtain ⟨hA, hB, hC, hDj⟩ := gapScan_inv D hD segments [] 0 (le_refl 0)
    hsorted hnonoverlap (by simp) (by simp)
  intro g hg seg hseg
  have hfold : g ∈ (segments.foldl (gapScanStep D) ([], 0)).1 →
      seg.endTs ≤ g.1 ∨ g.2 ≤ seg.startTs := by
    intro hg1
    rcases hDj g hg1 with hgnil | ⟨_, hdisj⟩
    · simp at hgnil
    · exact hdisj seg hseg
  have hend_of : (segments.foldl (gapScanStep D) ([], 0)).2 < D →
      seg.endTs ≤ (segments.foldl (gapScanStep D) ([], 0)).2 := by
    intro hcur
    have hminle := hB seg hseg
    rcases le_total seg.endTs D with hle | hle
    · rw [min_eq_left hle] at hminle
      exact hminle
    · exfalso
      rw [min_eq_right hle] at hminle
      linarith
  simp only [collectGaps] at hg
  split at hg
  · next hcur =>
    split at hg
    · next hc0 =>
      split at hg
      · next hwide =>
        rcases List.mem_append.mp hg with hg1 | hg1
        · exact hfold hg1
        · rcases List.mem_singleton.mp hg1 with rfl
          left
          show seg.endTs ≤ (0 : ℚ)
          have hend := hend_of hcur
          linarith
      · next => exact hfold hg
    · next hc0 =>
      split at hg
      · next hwide =>
        rcases List.mem_append.mp hg with hg1 | hg1
        · exact hfold hg1
        · rcases List.mem_singleton.mp hg1 with rfl
          left
          show seg.endTs ≤
            (segments.foldl (gapScanStep D) ([], 0)).2 + MIN_SEGMENT_GAP_MS
          have hend := hend_of hcur
          simp only [MIN_SEGMENT_GAP_MS]
          linarith
      · next => exact hfold hg
  · next => exact hfold hg

/-- C8: for a sorted, pairwise non-overlapping segment list the gap search
never returns a slot overlapping any segment, and it returns none whenever
the timeline duration is below `MIN_SEGMENT_MS`. -/
theorem findAvailableGap_spec (segments : List ZoomSegment)
    (timelineDurationMs preferredStartTs : ℚ)
    (hsorted : segments.Pairwise (fun a b => a.startTs ≤ b.startTs))
    (hnonoverlap : segments.Pairwise (fun a b => a.endTs ≤ b.startTs)) :
    (timelineDurationMs < MIN_SEGMENT_MS →
      findAvailableGapForSegment segments timelineDurationMs preferredStartTs =
        none) ∧
    ∀ slot : ℚ × ℚ,
      findAvailableGapForSegment segments timelineDurationMs preferredStartTs =
        some slot →
      ∀ seg ∈ segments, slot.2 ≤ seg.startTs ∨ seg.endTs ≤ slot.1 := by
  constructor
  · intro hlt
    simp only [findAvailableGapForSegment]
    rw [if_pos (max_lt (by norm_num [MIN_SEGMENT_MS]) hlt)]
  · intro slot hsome seg hseg
    simp only [findAvailableGapForSegment] at hsome
    by_cases hsmall : max 0 timelineDurationMs < MIN_SEGMENT_MS
    · rw [if_pos hsmall] at hsome
      exact absurd hsome (by simp)
    · rw [if_neg hsmall] at hsome
      have hsortb : segments.Pairwise
          (fun a b => (decide (a.startTs ≤ b.startTs) : Bool) = true) :=
        hsorted.imp (fun h => by simpa using h)
      have hms := List.mergeSort_of_sorted hsortb
      rw [hms] at hsome
      have hdisj := collectGaps_disjoint segments (max 0 timelineDurationMs)
        (le_max_left _ _) hsorted hnonoverlap
      obtain ⟨gap, hgap_mem, hgap1, hgap2⟩ := chooseSlot_subset _ _ slot hsome
      rcases hdisj gap hgap_mem seg hseg with hl | hr
      · right
        linarith
      · left
        linarith

/-- Witness for `findAvailableGap_spec` on a concrete one-segment list. -/
theorem findAvailableGap_spec_witness :
    ([(⟨"a", 1000, 2000, none, none, none, none, none, none, none, false⟩ :
        ZoomSegment)].Pairwise (fun a b => a.startTs ≤ b.startTs)) ∧
    ([(⟨"a", 1000, 2000, none, none, none, none, none, none, none, false⟩ :
        ZoomSegment)].Pairwise (fun a b => a.endTs ≤ b.startTs)) ∧
    ((100 : ℚ) < MIN_SEGMENT_MS →
      findAvailableGapForSegment
        [⟨"a", 1000, 2000, none, none, none, none, none, none, none, false⟩]
        100 0 = none) :=
  ⟨by simp, by simp,
   (findAvailableGap_spec
     [⟨"a", 1000, 2000, none, none, none, none, none, none, none, false⟩]
     100 0 (by simp) (by simp)).1⟩

theorem clamp_mono (v1 v2 lo hi : ℚ) (h : v1 ≤ v2) :
    clamp v1 lo hi ≤ clamp v2 lo hi :=
  min_le_min (max_le_max h (le_refl lo)) (le_refl hi)

theorem normalizeRect_idem (r : NormalizedRect) :
    normalizeRect (normalizeRect r) = normalizeRect r := by
  have hms : MIN_RECT_SIZE ≤ (1 : ℚ) := by norm_num [MIN_RECT_SIZE]
  have hw1 := lo_le_clamp r.width MIN_RECT_SIZE 1 hms
  have hw2 := clamp_le_hi r.width MIN_RECT_SIZE 1
  have hh1 := lo_le_clamp r.height MIN_RECT_SIZE 1 hms
  have hh2 := clamp_le_hi r.height MIN_RECT_SIZE 1
  have hx1 := lo_le_clamp r.x 0 (1 - clamp r.width MIN_RECT_SIZE 1)
    (by linarith)
  have hx2 := clamp_le_hi r.x 0 (1 - clamp r.width MIN_RECT_SIZE 1)
  have hy1 := lo_le_clamp r.y 0 (1 - clamp r.height MIN_RECT_SIZE 1)
    (by linarith)
  have hy2 := clamp_le_hi r.y 0 (1 - clamp r.height MIN_RECT_SIZE 1)
  simp only [normalizeRect]
  rw [clamp_eq_self _ _ _ hw1 hw2, clamp_eq_self _ _ _ hh1 hh2,
    clamp_eq_self _ _ _ hx1 hx2, clamp_eq_self _ _ _ hy1 hy2]

theorem map_eq_self_of {α : Type} (l : List α) (f : α → α)
    (h : ∀ x ∈ l, f x = x) : l.map f = l := by
  induction l with
  | nil => rfl
  | cons a rest ih =>
    rw [List.map_cons, h a (List.mem_cons_self a rest),
      ih (fun x hx => h x (List.mem_cons_of_mem a hx))]

theorem tp_mergeSort_sorted (l : List TargetPoint) :
    (l.mergeSort (fun a b => decide (a.ts ≤ b.ts))).Pairwise
      (fun a b => a.ts ≤ b.ts) := by
  have htrans : ∀ a b c : TargetPoint, decide (a.ts ≤ b.ts) = true →
      decide (b.ts ≤ c.ts) = true → decide (a.ts ≤ c.ts) = true := by
    intro a b c hab hbc
    simp only [decide_eq_true_eq] at hab hbc ⊢
    exact le_trans hab hbc
  have htotal : ∀ a b : TargetPoint,
      (decide (a.ts ≤ b.ts) || decide (b.ts ≤ a.ts)) = true := by
    intro a b
    simp only [Bool.or_eq_true, decide_eq_true_eq]
    exact le_total a.ts b.ts
  have h := List.sorted_mergeSort htrans htotal l
  exact h.imp (by simp only [decide_eq_true_eq]; exact id)

theorem tp_getLastD_mem :
    ∀ (l : List TargetPoint) (d : TargetPoint), l ≠ [] → l.getLastD d ∈ l := by
  intro l
  induction l with
  | nil => intro d h; exact absurd rfl h
  | cons a rest ih =>
    intro d _
    rw [List.getLastD_cons]
    cases hr : rest with
    | nil => simp
    | cons b t =>
      have := ih a (by simp [hr])
      rw [hr] at this
      exact List.mem_cons_of_mem a (hr ▸ this)

theorem tp_sorted_head_le (q : TargetPoint) (rest : List TargetPoint)
    (hp : (q :: rest).Pairwise (fun a b => a.ts ≤ b.ts)) (x : TargetPoint)
    (hx : x ∈ q :: rest) : q.ts ≤ x.ts := by
  rcases List.mem_cons.mp hx with rfl | hx
  · exact le_refl _
  · exact (List.pairwise_cons.mp hp).1 x hx

theorem tp_find?_min_ts (p : TargetPoint → Bool) (q : TargetPoint) :
    ∀ l : List TargetPoint, l.Pairwise (fun a b => a.ts ≤ b.ts) →
      l.find? p = some q → ∀ x ∈ l, p x = true → q.ts ≤ x.ts := by
  intro l
  induction l with
  | nil => intro _ hq; simp at hq
  | cons a rest ih =>
    intro hsorted hq x hx hpx
    rw [List.find?_cons] at hq
    by_cases hpa : p a = true
    · simp only [hpa] at hq
      have haq : a = q := Option.some.inj hq
      subst haq
      exact tp_sorted_head_le a rest hsorted x hx
    · have hpaf : p a = false := by simpa using hpa
      simp only [hpaf] at hq
      rcases List.mem_cons.mp hx with rfl | hx2
      · exact absurd hpx (by simpa using hpa)
      · exact ih (List.pairwise_cons.mp hsorted).2 hq x hx2 hpx

theorem baseRect_norm (s : ZoomSegment) :
    normalizeRect (getSegmentBaseRect s) = getSegmentBaseRect s :=
  normalizeRect_idem _

theorem legacyRect_norm (s : ZoomSegment) (t : ℚ) :
    normalizeRect (getLegacyPanRectAtTimelineTs s t) =
      getLegacyPanRectAtTimelineTs s t :=
  normalizeRect_idem _

theorem gstp_ne_nil (s : ZoomSegment) : getSegmentTargetPoints s ≠ [] := by
  simp only [getSegmentTargetPoints]
  split
  · next firstP restP hexp =>
    split
    · split <;> simp
    · split <;> simp
  · next hexp =>
    split
    · simp
    · next legacyPan hpan =>
      intro h
      have hlen := congrArg List.length h
      rw [List.length_mergeSort] at hlen
      simp at hlen

theorem tp_append_end_props (s e : ℚ) (hse : s ≤ e) (ws : List TargetPoint)
    (x : TargetPoint) (hx_ts : x.ts = e)
    (hx_rect : normalizeRect x.rect = x.rect)
    (hsorted : ws.Pairwise (fun a b => a.ts ≤ b.ts))
    (hmem : ∀ p ∈ ws, normalizeRect p.rect = p.rect ∧ s ≤ p.ts ∧ p.ts ≤ e) :
    (ws ++ [x]).Pairwise (fun a b => a.ts ≤ b.ts) ∧
    ∀ p ∈ ws ++ [x],
      normalizeRect p.rect = p.rect ∧ s ≤ p.ts ∧ p.ts ≤ e := by
  constructor
  · rw [List.pairwise_append]
    refine ⟨hsorted, List.pairwise_singleton _ _, ?_⟩
    intro a ha b hb
    rcases List.mem_singleton.mp hb with rfl
    rw [hx_ts]
    exact (hmem a ha).2.2
  · intro p hp
    rcases List.mem_append.mp hp with hp | hp
    · exact hmem p hp
    · rcases List.mem_singleton.mp hp with rfl
      refine ⟨hx_rect, ?_, ?_⟩
      · rw [hx_ts]; exact hse
      · rw [hx_ts]

theorem gstp_props (s : ZoomSegment) (hse : s.startTs ≤ s.endTs) :
    (getSegmentTargetPoints s).Pairwise (fun a b => a.ts ≤ b.ts) ∧
    ∀ p ∈ getSegmentTargetPoints s,
      normalizeRect p.rect = p.rect ∧ s.startTs ≤ p.ts ∧ p.ts ≤ s.endTs := by
  simp only [getSegmentTargetPoints]
  split
  · next firstP restP hexp =>
    have hEsorted : (firstP :: restP).Pairwise (fun a b => a.ts ≤ b.ts) := by
      rw [← hexp]
      exact tp_mergeSort_sorted _
    have hEmem : ∀ p ∈ firstP :: restP,
        normalizeRect p.rect = p.rect ∧ s.startTs ≤ p.ts ∧ p.ts ≤ s.endTs := by
      intro p hp
      rw [← hexp, List.mem_mergeSort, List.mem_map] at hp
      rcases hp with ⟨orig, horig, rfl⟩
      exact ⟨normalizeRect_idem _, lo_le_clamp _ _ _ hse, clamp_le_hi _ _ _⟩
    split
    · next hpad =>
      have hws_sorted :
          ((⟨s.startTs, firstP.rect⟩ : TargetPoint) :: firstP :: restP).Pairwise
            (fun a b => a.ts ≤ b.ts) := by
        rw [List.pairwise_cons]
        exact ⟨fun b hb => (hEmem b hb).2.1, hEsorted⟩
      have hws_mem : ∀ p ∈ (⟨s.startTs, firstP.rect⟩ : TargetPoint) ::
          firstP :: restP,
          normalizeRect p.rect = p.rect ∧ s.startTs ≤ p.ts ∧ p.ts ≤ s.endTs := by
        intro p hp
        rcases List.mem_cons.mp hp with rfl | hp
        · exact ⟨(hEmem firstP (List.mem_cons_self _ _)).1, le_refl _, hse⟩
        · exact hEmem p hp
      split
      · next hlast =>
        exact tp_append_end_props s.startTs s.endTs hse _ _ rfl
          ((hws_mem _ (tp_getLastD_mem _ firstP (by simp))).1)
          hws_sorted hws_mem
      · next => exact ⟨hws_sorted, hws_mem⟩
    · next hpad =>
      split
      · next hlast =>
        exact tp_append_end_props s.startTs s.endTs hse _ _ rfl
          ((hEmem _ (tp_getLastD_mem _ firstP (by simp))).1)
          hEsorted hEmem
      · next => exact ⟨hEsorted, hEmem⟩
  · next hexp =>
    split
    · next hpanil =>
      constructor
      · rw [List.pairwise_cons]
        refine ⟨?_, List.pairwise_singleton _ _⟩
        intro b hb
        rcases List.mem_singleton.mp hb with rfl
        exact hse
      · intro p hp
        rcases List.mem_cons.mp hp with rfl | hp
        · exact ⟨baseRect_norm s, le_refl _, hse⟩
        · rcases List.mem_singleton.mp hp with rfl
          exact ⟨baseRect_norm s, hse, le_refl _⟩
    · next legacyPan hpan =>
      constructor
      · exact tp_mergeSort_sorted _
      · intro p hp
        rw [List.mem_mergeSort] at hp
        rcases List.mem_append.mp hp with hp | hp
        · rcases List.mem_cons.mp hp with rfl | hp
          · exact ⟨legacyRect_norm s _, le_refl _, hse⟩
          · rw [List.mem_map] at hp
            rcases hp with ⟨k, hk, rfl⟩
            rw [List.mem_filter] at hk
            have hk2 := hk.2
            simp only [Bool.and_eq_true, decide_eq_true_eq] at hk2
            exact ⟨legacyRect_norm s _, hk2.1, hk2.2⟩
        · rcases List.mem_singleton.mp hp with rfl
          exact ⟨legacyRect_norm s _, hse, le_refl _⟩

theorem trim_fixed_of_wellformed (s1 : ZoomSegment) (hauto : s1.isAuto = true)
    (final : List TargetPoint) (htp : s1.targetPoints = some final)
    (hne : final ≠ [])
    (hsorted : final.Pairwise (fun a b => a.ts ≤ b.ts))
    (hmem : ∀ p ∈ final,
      normalizeRect p.rect = p.rect ∧ s1.startTs ≤ p.ts ∧ p.ts ≤ s1.endTs)
    (hhead : (final.headD default).ts = s1.startTs)
    (hlast : (final.getLastD default).ts = s1.endTs)
    (hinit : s1.initialRect = some ((final.headD default).rect))
    (heff : s1.startTs < s1.endTs)
    (q : TargetPoint) (hq_mem : q ∈ final)
    (hq_eff : getZoomStrength q.rect > 1 + EFFECTIVE_ZOOM_EPSILON)
    (hq_ts : q.ts = s1.startTs) :
    trimAutoNoopSegment s1 = some s1 := by
  obtain ⟨f0, ftl, hfinal⟩ := List.exists_cons_of_ne_nil hne
  subst hfinal
  -- the second pass reads back exactly the stored target points
  have hpoints : getSegmentTargetPoints s1 = f0 :: ftl := by
    simp only [getSegmentTargetPoints, htp, Option.getD_some]
    have hmap : (f0 :: ftl).map
        (fun p => (⟨clamp p.ts s1.startTs s1.endTs, normalizeRect p.rect⟩ :
          TargetPoint)) = f0 :: ftl := by
      apply map_eq_self_of
      intro x hx
      obtain ⟨hnorm, h1, h2⟩ := hmem x hx
      rw [clamp_eq_self _ _ _ h1 h2, hnorm]
    rw [hmap]
    have hms : (f0 :: ftl).mergeSort (fun a b => decide (a.ts ≤ b.ts)) =
        f0 :: ftl :=
      List.mergeSort_of_sorted (hsorted.imp (by
        intro a b h
        simpa using h))
    simp only [hms]
    have hf0ts : f0.ts = s1.startTs := hhead
    rw [hf0ts]
    rw [if_neg (lt_irrefl s1.startTs)]
    have hlastD : List.getLastD (f0 :: ftl) f0 = List.getLastD (f0 :: ftl) default := by
      rw [List.getLastD_cons, List.getLastD_cons]
    rw [hlastD, hlast]
    rw [if_neg (lt_irrefl s1.endTs)]
  have hlen0 : ¬ (getSegmentTargetPoints s1).length = 0 := by
    rw [hpoints]
    simp
  -- the search for the first effective point succeeds
  cases hfind1 : (f0 :: ftl).find?
      (fun p => decide (getZoomStrength p.rect > 1 + EFFECTIVE_ZOOM_EPSILON)) with
  | none =>
    exfalso
    have hnone := List.find?_eq_none.mp hfind1 q hq_mem
    simp only [decide_eq_true_eq] at hnone
    exact hnone hq_eff
  | some q1 =>
    have hq1_mem := List.mem_of_find?_eq_some hfind1
    have hq1_lo := (hmem q1 hq1_mem).2.1
    have hq1_min := tp_find?_min_ts _ q1 (f0 :: ftl) hsorted hfind1 q hq_mem
      (by simpa using hq_eff)
    have hq1_ts : q1.ts = s1.startTs := by
      rw [hq_ts] at hq1_min
      exact le_antisymm hq1_min hq1_lo
    have heffstart : clamp q1.ts s1.startTs s1.endTs = s1.startTs := by
      rw [hq1_ts]
      exact clamp_eq_self _ _ _ (le_refl _) (le_of_lt heff)
    have hmap : (f0 :: ftl).map
        (fun p => (⟨clamp p.ts s1.startTs s1.endTs, normalizeRect p.rect⟩ :
          TargetPoint)) = f0 :: ftl := by
      apply map_eq_self_of
      intro x hx
      obtain ⟨hnorm, h1, h2⟩ := hmem x hx
      rw [clamp_eq_self _ _ _ h1 h2, hnorm]
    have hlen1 : ¬ (f0 :: ftl).length = 0 := by simp
    have hfilter : (f0 :: ftl).filter (fun p => decide (p.ts ≥ s1.startTs)) =
        f0 :: ftl :=
      List.filter_eq_self.mpr (fun a ha => by
        simpa using (hmem a ha).2.1)
    -- unfold the trim on s1
    simp only [trimAutoNoopSegment, hauto, Bool.not_true, Bool.false_eq_true,
      if_false, hpoints, hfind1]
    rw [if_neg hlen1]
    rw [heffstart]
    rw [if_neg (not_le.mpr heff)]
    rw [hfilter, hmap]
    rw [if_neg hlen1]
    have hh : (List.headD (f0 :: ftl) default).ts = s1.startTs := hhead
    rw [hh]
    rw [if_neg (lt_irrefl s1.startTs)]
    have hl : (List.getLastD (f0 :: ftl) default).ts = s1.endTs := hlast
    rw [hl]
    rw [if_neg (lt_irrefl s1.endTs)]
    rw [← hinit, ← htp, ← hauto]

theorem trim_nonauto (s : ZoomSegment) (h : s.isAuto = false) :
    trimAutoNoopSegment s = some s := by
  simp [trimAutoNoopSegment, h]

/-- C9: `trimAutoNoopSegment` is idempotent — a second pass over its output
changes nothing, and a dropped segment stays dropped; non-auto segments pass
through unchanged, and an auto segment whose target points are all no-ops
(zoom strength at most `1 + EFFECTIVE_ZOOM_EPSILON`) is dropped entirely. -/
theorem trimAutoNoop_idempotent (s : ZoomSegment) :
    (trimAutoNoopSegment s).bind trimAutoNoopSegment = trimAutoNoopSegment s ∧
    (s.isAuto = false → trimAutoNoopSegment s = some s) ∧
    (s.isAuto = true →
      (∀ p ∈ getSegmentTargetPoints s,
        getZoomStrength p.rect ≤ 1 + EFFECTIVE_ZOOM_EPSILON) →
      trimAutoNoopSegment s = none) := by
  have hlen0 : ¬ (getSegmentTargetPoints s).length = 0 := fun h =>
    gstp_ne_nil s (List.length_eq_zero.mp h)
  refine ⟨?_, fun h => trim_nonauto s h, ?_⟩
  · by_cases hauto : s.isAuto = true
    · cases htrim : trimAutoNoopSegment s with
      | none => rfl
      | some s1 =>
        rw [Option.some_bind]
        simp only [trimAutoNoopSegment, hauto, Bool.not_true, Bool.false_eq_true,
          if_false] at htrim
        rw [if_neg hlen0] at htrim
        cases hfind : (getSegmentTargetPoints s).find?
            (fun p => decide (getZoomStrength p.rect > 1 + EFFECTIVE_ZOOM_EPSILON)) with
        | none =>
          simp only [hfind] at htrim
          exact Option.noConfusion htrim
        | some pt =>
          simp only [hfind] at htrim
          by_cases hge : clamp pt.ts s.startTs s.endTs ≥ s.endTs
          · rw [if_pos hge] at htrim
            simp at htrim
          · rw [if_neg hge] at htrim
            have hse : s.startTs ≤ s.endTs := by
              by_contra hgt
              push_neg at hgt
              apply hge
              show s.endTs ≤ clamp pt.ts s.startTs s.endTs
              simp only [clamp]
              exact le_min (le_trans (le_of_lt hgt) (le_max_right _ _)) (le_refl _)
            obtain ⟨hsorted, hmem⟩ := gstp_props s hse
            have hpt_mem := List.mem_of_find?_eq_some hfind
            have hpt_eff : getZoomStrength pt.rect > 1 + EFFECTIVE_ZOOM_EPSILON := by
              have := List.find?_some hfind
              simpa using this
            obtain ⟨hpt_norm, hpt_lo, hpt_hi⟩ := hmem pt hpt_mem
            have hes : clamp pt.ts s.startTs s.endTs = pt.ts :=
              clamp_eq_self _ _ _ hpt_lo hpt_hi
            rw [hes] at htrim hge
            push_neg at hge
            have hmapF : ((getSegmentTargetPoints s).filter
                  (fun p => decide (p.ts ≥ pt.ts))).map
                (fun p => (⟨clamp p.ts pt.ts s.endTs, normalizeRect p.rect⟩ :
                  TargetPoint)) =
                (getSegmentTargetPoints s).filter (fun p => decide (p.ts ≥ pt.ts)) := by
              apply map_eq_self_of
              intro x hx
              have hx2 := List.mem_filter.mp hx
              obtain ⟨hnorm, _, h2⟩ := hmem x hx2.1
              have hge2 : pt.ts ≤ x.ts := by simpa using hx2.2
              rw [clamp_eq_self _ _ _ hge2 h2, hnorm]
            rw [hmapF] at htrim
            have hptF : pt ∈ (getSegmentTargetPoints s).filter
                (fun p => decide (p.ts ≥ pt.ts)) :=
              List.mem_filter.mpr ⟨hpt_mem, by simp⟩
            have hF_sorted : ((getSegmentTargetPoints s).filter
                (fun p => decide (p.ts ≥ pt.ts))).Pairwise
                (fun a b => a.ts ≤ b.ts) := hsorted.filter _
            have hF_mem : ∀ x ∈ (getSegmentTargetPoints s).filter
                (fun p => decide (p.ts ≥ pt.ts)),
                normalizeRect x.rect = x.rect ∧ pt.ts ≤ x.ts ∧ x.ts ≤ s.endTs := by
              intro x hx
              have hx2 := List.mem_filter.mp hx
              obtain ⟨hnorm, _, h2⟩ := hmem x hx2.1
              exact ⟨hnorm, by simpa using hx2.2, h2⟩
            obtain ⟨f0, ftl, hFeq⟩ := List.exists_cons_of_ne_nil
              (List.ne_nil_of_mem hptF)
            rw [hFeq] at htrim hptF hF_sorted hF_mem
            have hf0_ts : f0.ts = pt.ts := by
              have h1 : pt.ts ≤ f0.ts :=
                (hF_mem f0 (List.mem_cons_self _ _)).2.1
              have h2 : f0.ts ≤ pt.ts := tp_sorted_head_le f0 ftl hF_sorted pt hptF
              exact le_antisymm h2 h1
            rw [if_neg (by simp : ¬ ((f0 :: ftl).length = 0))] at htrim
            have hhlt : ¬ ((List.headD (f0 :: ftl) default).ts > pt.ts) := by
              simp only [List.headD_cons]
              rw [hf0_ts]
              exact lt_irrefl _
            rw [if_neg hhlt] at htrim
            by_cases hlt : (List.getLastD (f0 :: ftl) default).ts < s.endTs
            · rw [if_pos hlt] at htrim
              have hX := Option.some.inj htrim
              rw [← hX]
              have hlast_mem : List.getLastD (f0 :: ftl) default ∈ f0 :: ftl :=
                tp_getLastD_mem _ _ (by simp)
              obtain ⟨hsorted2, hmem2⟩ := tp_append_end_props pt.ts s.endTs
                (le_of_lt hge) (f0 :: ftl)
                ⟨s.endTs, (List.getLastD (f0 :: ftl) default).rect⟩ rfl
                ((hF_mem _ hlast_mem).1) hF_sorted hF_mem
              refine trim_fixed_of_wellformed _ rfl _ rfl (by simp)
                hsorted2 hmem2 ?_ ?_ rfl hge pt
                (List.mem_append_left _ hptF) hpt_eff rfl
              · exact hf0_ts
              · rw [List.getLastD_concat]
            · rw [if_neg hlt] at htrim
              push_neg at hlt
              have hX := Option.some.inj htrim
              rw [← hX]
              have hlast_mem : List.getLastD (f0 :: ftl) default ∈ f0 :: ftl :=
                tp_getLastD_mem _ _ (by simp)
              have hlast_ts : (List.getLastD (f0 :: ftl) default).ts = s.endTs :=
                le_antisymm ((hF_mem _ hlast_mem).2.2) hlt
              exact trim_fixed_of_wellformed _ rfl (f0 :: ftl) rfl (by simp)
                hF_sorted hF_mem hf0_ts hlast_ts rfl hge pt hptF hpt_eff rfl
    · have h0 : s.isAuto = false := by
        revert hauto
        cases s.isAuto <;> simp
      rw [trim_nonauto s h0, Option.some_bind, trim_nonauto s h0]
  · intro hauto hall
    have hfind : (getSegmentTargetPoints s).find?
        (fun p => decide (getZoomStrength p.rect > 1 + EFFECTIVE_ZOOM_EPSILON)) =
        none :=
      List.find?_eq_none.mpr (fun x hx => by
        simp only [decide_eq_true_eq]
        exact not_lt.mpr (hall x hx))
    simp only [trimAutoNoopSegment, hauto, Bool.not_true, Bool.false_eq_true,
      if_false, hfind]
    rw [if_neg hlen0]

theorem trimAutoNoop_idempotent_witness :
    trimAutoNoopSegment trimWitnessNonAuto = some trimWitnessNonAuto ∧
    (trimAutoNoopSegment trimWitnessAuto).bind trimAutoNoopSegment =
      trimAutoNoopSegment trimWitnessAuto ∧
    trimAutoNoopSegment trimWitnessAuto = none :=
  ⟨(trimAutoNoop_idempotent trimWitnessNonAuto).2.1 rfl,
   (trimAutoNoop_idempotent trimWitnessAuto).1,
   (trimAutoNoop_idempotent trimWitnessAuto).2.2 rfl (by
     intro p hp
     have hpts : getSegmentTargetPoints trimWitnessAuto =
         [⟨0, getSegmentBaseRect trimWitnessAuto⟩,
          ⟨1000, getSegmentBaseRect trimWitnessAuto⟩] := by
       simp [getSegmentTargetPoints, getSortedPanTrajectory, trimWitnessAuto]
     rw [hpts] at hp
     have hbase : getSegmentBaseRect trimWitnessAuto = FULL_RECT := by
       simp only [getSegmentBaseRect, trimWitnessAuto, Option.getD_none,
         Option.getD_some, normalizeRect, FULL_RECT, MIN_RECT_SIZE, clamp]
       norm_num
     have hstrength : getZoomStrength (getSegmentBaseRect trimWitnessAuto) ≤
         1 + EFFECTIVE_ZOOM_EPSILON := by
       rw [hbase]
       simp only [getZoomStrength, FULL_RECT, EFFECTIVE_ZOOM_EPSILON]
       norm_num
     rcases List.mem_cons.mp hp with rfl | hp2
     · exact hstrength
     · rcases List.mem_singleton.mp hp2 with rfl
       exact hstrength)⟩
